import Mathlib

/-!
A shallow embedding of the `lru_cache` class template from
`src/cxx/lrucache/lru.hh`, together with proofs about its public
operations (`get`, `insert`, `insert_on_missing`).

Modelling notes:
* A `node_type` is represented by `Node`; the pool slot a node occupies is
  recorded in its `id` field (its index in `_node_pool`), so the free stack
  `_free_nodes` is represented as a list of slot ids (head = top of stack).
* The intrusive hash index `_index` always holds exactly the nodes that sit
  on one of the two intrusive lists, so index lookups are modelled as a
  search over `lru ++ unevicted_list`; the bucket layout is not observable
  through the public interface, and keys in the index are unique in every
  reachable state, so the search order is immaterial there.
* `uint64_t` timestamps are modelled exactly: the clock increment
  `++_current_time` is `u64 (current_time + 1)` (wrapping at `2 ^ 64`) and
  the window test `access_time - promotion_time` is the wrapping
  subtraction `u64_sub`, so the clock wraps to 0 after `2 ^ 64` ticks just
  as the source does.
* `allocate_node` pops an empty `std::stack` (undefined behaviour) when the
  free pool is exhausted, and the eviction loop in `make_room_for_insert`
  walks past the start of the list (undefined behaviour) when
  `_batch_evict_size` exceeds the list length; both are modelled by
  returning `none`.
* The constructor computes `_soft_promotion` as `capacity * 0.5` in
  `double` arithmetic truncated back to `size_t`, which equals
  `capacity / 2` exactly for any capacity below `2 ^ 53`.
* Lists keep the C++ orientation: the head of `lru` is the MRU end
  (`push_front`), the last element is the LRU tail.
-/

/-- Reduction of a value into the `uint64_t` range: every stored timestamp
and the clock itself live below `2 ^ 64`. -/
def u64 (x : Nat) : Nat :=
  x % 2 ^ 64

/-- `uint64_t` subtraction `a - b` (wrapping), for operands already in the
`uint64_t` range. -/
def u64_sub (a b : Nat) : Nat :=
  (a + 2 ^ 64 - b) % 2 ^ 64

/-- The `node_type` struct of `lru_cache` (the two intrusive hooks are
represented by list membership; `id` is the node's slot in `_node_pool`). -/
structure Node (κ ν : Type) where
  id : Nat
  key : κ
  value : ν
  access_time : Nat
  promotion_time : Nat
  evictable : Bool
deriving DecidableEq

/-- The state of an `lru_cache<Key, Value, CanEvict>` object. -/
structure lru_cache (κ ν : Type) where
  max_size : Nat
  soft_promotion : Nat
  batch_evict_size : Nat
  free_nodes : List Nat
  lru : List (Node κ ν)
  unevicted_list : List (Node κ ν)
  current_time : Nat
  nr_unevicted : Nat
deriving DecidableEq

namespace lru_cache

variable {κ ν : Type} [DecidableEq κ]

/-- The `lru_cache(size_t capacity)` constructor: derived parameters, a full
free stack (`&_node_pool.front()` pushed last, hence slot 0 on top), empty
lists, clock 0, no pinned entries. -/
def init (capacity : Nat) : lru_cache κ ν where
  max_size := capacity
  soft_promotion := capacity / 2
  batch_evict_size := min 3 (capacity - capacity / 2)
  free_nodes := List.range (2 * capacity)
  lru := []
  unevicted_list := []
  current_time := 0
  nr_unevicted := 0

/-- The nodes currently linked into the hash index: exactly the nodes on one
of the two intrusive lists. -/
def live (s : lru_cache κ ν) : List (Node κ ν) :=
  s.lru ++ s.unevicted_list

/-- `find_in_index`: probe the hash index for a key. -/
def find_in_index (s : lru_cache κ ν) (key : κ) : Option (Node κ ν) :=
  s.live.find? (fun n => decide (n.key = key))

/-- The promoting branch of `lru_touch`: the touched node is unlinked from
its list position and pushed to the MRU end of `_lru` with both timestamps
set to the incremented clock. -/
def touch_promote (s : lru_cache κ ν) (n : Node κ ν) : lru_cache κ ν :=
  { s with
    current_time := u64 (s.current_time + 1)
    lru := { n with access_time := u64 (s.current_time + 1), promotion_time := u64 (s.current_time + 1) }
      :: s.lru.filter (fun m => decide (m.id ≠ n.id))
    unevicted_list := s.unevicted_list.filter (fun m => decide (m.id ≠ n.id)) }

/-- The non-promoting branch of `lru_touch`: only `access_time` of the
touched node is stamped with the incremented clock, in place. -/
def touch_plain (s : lru_cache κ ν) (n : Node κ ν) : lru_cache κ ν :=
  { s with
    current_time := u64 (s.current_time + 1)
    lru := s.lru.map
      (fun m => if m.id = n.id then { m with access_time := u64 (s.current_time + 1) } else m)
    unevicted_list := s.unevicted_list.map
      (fun m => if m.id = n.id then { m with access_time := u64 (s.current_time + 1) } else m) }

/-- `lru_touch(node)`, the node being identified by its pool slot `nid`:
stamp `access_time` with `++_current_time`; if the promotion window has
passed and the node is evictable, unlink it from its list position and
push it to the MRU end of `_lru`, recording the promotion time. -/
def lru_touch (s : lru_cache κ ν) (nid : Nat) : lru_cache κ ν :=
  match s.live.find? (fun n => decide (n.id = nid)) with
  | none => s
  | some n =>
    if s.soft_promotion < u64_sub (u64 (s.current_time + 1)) n.promotion_time ∧
        n.evictable = true then
      touch_promote s n
    else
      touch_plain s n

/-- `make_room_for_insert`: when `_free_nodes.size() + _nr_unevicted <
_max_size`, walk `_batch_evict_size` steps back from the end of `_lru`,
unlinking each visited node from the index and pushing it onto the free
stack (the node closest to the tail is pushed first), then erase the
visited suffix.  Walking past the first element is undefined behaviour,
modelled as `none`. -/
def make_room_for_insert (s : lru_cache κ ν) : Option (lru_cache κ ν) :=
  if s.free_nodes.length + s.nr_unevicted < s.max_size then
    if s.batch_evict_size ≤ s.lru.length then
      some { s with
        lru := s.lru.take (s.lru.length - s.batch_evict_size)
        free_nodes :=
          (s.lru.drop (s.lru.length - s.batch_evict_size)).map Node.id ++ s.free_nodes }
    else none
  else some s

/-- `insert_check`: run the eviction check, then probe the index in the
resulting state; returns the post-eviction state together with the node
found (if the key is present). -/
def insert_check (s : lru_cache κ ν) (key : κ) :
    Option (lru_cache κ ν × Option (Node κ ν)) :=
  match make_room_for_insert s with
  | none => none
  | some s1 => some (s1, find_in_index s1 key)

/-- `do_insert`: pop a node off the free stack (`none` when the stack is
empty: `allocate_node` would pop an empty `std::stack`), initialise it,
commit it to the index and push it to the MRU end of the list selected by
`evictable`. -/
def do_insert (s : lru_cache κ ν) (key : κ) (value : ν) (evictable : Bool) :
    Option (lru_cache κ ν) :=
  match s.free_nodes with
  | [] => none
  | nid :: rest =>
    let t := u64 (s.current_time + 1)
    let n : Node κ ν := ⟨nid, key, value, t, t, evictable⟩
    some { s with
      free_nodes := rest
      current_time := t
      lru := if evictable then n :: s.lru else s.lru
      unevicted_list := if evictable then s.unevicted_list else n :: s.unevicted_list }

/-- `get`: probe the index; on a hit, touch the node and return its value
(the value is not modified by the touch), on a miss return `nullopt`. -/
def get (s : lru_cache κ ν) (key : κ) : Option ν × lru_cache κ ν :=
  match find_in_index s key with
  | some n => (some n.value, lru_touch s n.id)
  | none => (none, s)

/-- The overwrite `node->value = value` performed on the hit path of
`insert`, the node being identified by its pool slot. -/
def set_value (s : lru_cache κ ν) (nid : Nat) (v : ν) : lru_cache κ ν :=
  { s with
    lru := s.lru.map (fun m => if m.id = nid then { m with value := v } else m)
    unevicted_list :=
      s.unevicted_list.map (fun m => if m.id = nid then { m with value := v } else m) }

/-- `insert(key, value, evictable)`: eviction check, then either overwrite
and touch the node that is (still) present, or insert a fresh node,
bumping `_nr_unevicted` when the new node is pinned. -/
def insert (s : lru_cache κ ν) (key : κ) (value : ν) (evictable : Bool) :
    Option (lru_cache κ ν) :=
  match insert_check s key with
  | none => none
  | some (s1, some n) => some (lru_touch (set_value s1 n.id value) n.id)
  | some (s1, none) =>
    match do_insert s1 key value evictable with
    | none => none
    | some s2 => some (if evictable then s2 else { s2 with nr_unevicted := s2.nr_unevicted + 1 })

/-- `insert_on_missing(key, value)`: eviction check, then insert an
evictable node only when the key is absent from the post-eviction index. -/
def insert_on_missing (s : lru_cache κ ν) (key : κ) (value : ν) :
    Option (lru_cache κ ν) :=
  match insert_check s key with
  | none => none
  | some (s1, some _) => some s1
  | some (s1, none) => do_insert s1 key value true

end lru_cache

/-- A call to one of the three public member functions. -/
inductive Op (κ ν : Type) where
  | get (key : κ)
  | insert (key : κ) (value : ν) (evictable : Bool)
  | insert_on_missing (key : κ) (value : ν)

variable {κ ν : Type} [DecidableEq κ]

/-- Run one public operation; `none` models the undefined behaviour of the
C++ on pool underflow (see `do_insert` and `make_room_for_insert`). -/
def apply_op (s : lru_cache κ ν) : Op κ ν → Option (lru_cache κ ν)
  | Op.get k => some (lru_cache.get s k).2
  | Op.insert k v e => lru_cache.insert s k v e
  | Op.insert_on_missing k v => lru_cache.insert_on_missing s k v

/-- Run a sequence of public operations. -/
def run (s : lru_cache κ ν) : List (Op κ ν) → Option (lru_cache κ ν)
  | [] => some s
  | op :: rest =>
    match apply_op s op with
    | none => none
    | some s' => run s' rest

/-- The cache states reachable from a freshly constructed cache through the
public interface. -/
inductive Reachable : lru_cache κ ν → Prop where
  | init (capacity : Nat) : Reachable (lru_cache.init capacity)
  | step {s s' : lru_cache κ ν} (op : Op κ ν) :
      Reachable s → apply_op s op = some s' → Reachable s'

/-- Folding `run` into `Reachable`. -/
theorem run_reachable {s s' : lru_cache κ ν} {ops : List (Op κ ν)}
    (hs : Reachable s) (h : run s ops = some s') : Reachable s' := by
  induction ops generalizing s with
  | nil =>
    rw [run] at h
    cases h
    exact hs
  | cons op rest ih =>
    rw [run] at h
    cases hop : apply_op s op with
    | none => rw [hop] at h; exact absurd h (by simp)
    | some s1 => rw [hop] at h; exact ih (Reachable.step op hs hop) h

/-! Concrete runs used as counterexamples and witnesses (capacity 4, hence
`soft_promotion = 2`, `batch_evict_size = 2`, pool size 8). -/

/-- Insert keys 1..5, all evictable, values 11..15. -/
def demo_ops5 : List (Op Nat Nat) :=
  [Op.insert 1 11 true, Op.insert 2 12 true, Op.insert 3 13 true,
   Op.insert 4 14 true, Op.insert 5 15 true]

/-- Insert keys 1..7, all evictable, values 11..17. -/
def demo_ops7 : List (Op Nat Nat) :=
  demo_ops5 ++ [Op.insert 6 16 true, Op.insert 7 17 true]

/-- The state of a capacity-4 cache after `demo_ops5`: all five keys
resident (`free + pinned = 3 < 4`, but eviction only runs on the next
insertion attempt). -/
def demo5 : lru_cache Nat Nat where
  max_size := 4
  soft_promotion := 2
  batch_evict_size := 2
  free_nodes := [5, 6, 7]
  lru := [⟨4, 5, 15, 5, 5, true⟩, ⟨3, 4, 14, 4, 4, true⟩, ⟨2, 3, 13, 3, 3, true⟩,
          ⟨1, 2, 12, 2, 2, true⟩, ⟨0, 1, 11, 1, 1, true⟩]
  unevicted_list := []
  current_time := 5
  nr_unevicted := 0

/-- The state of a capacity-4 cache after `demo_ops7`: keys 1 and 2 were
evicted by the batch that ran at the head of the insertion of key 6. -/
def demo7 : lru_cache Nat Nat where
  max_size := 4
  soft_promotion := 2
  batch_evict_size := 2
  free_nodes := [5, 6, 7]
  lru := [⟨0, 7, 17, 7, 7, true⟩, ⟨1, 6, 16, 6, 6, true⟩, ⟨4, 5, 15, 5, 5, true⟩,
          ⟨3, 4, 14, 4, 4, true⟩, ⟨2, 3, 13, 3, 3, true⟩]
  unevicted_list := []
  current_time := 7
  nr_unevicted := 0

/-- The state of a capacity-4 cache after one evictable insert of key 1. -/
def demo1 : lru_cache Nat Nat where
  max_size := 4
  soft_promotion := 2
  batch_evict_size := 2
  free_nodes := [1, 2, 3, 4, 5, 6, 7]
  lru := [⟨0, 1, 11, 1, 1, true⟩]
  unevicted_list := []
  current_time := 1
  nr_unevicted := 0

/-- The state of a capacity-4 cache after one pinned insert of key 1 with
value 10 (the first half of concrete scenario 5 of the specification). -/
def demo_pinned : lru_cache Nat Nat where
  max_size := 4
  soft_promotion := 2
  batch_evict_size := 2
  free_nodes := [1, 2, 3, 4, 5, 6, 7]
  lru := []
  unevicted_list := [⟨0, 1, 10, 1, 1, false⟩]
  current_time := 1
  nr_unevicted := 1

theorem demo5_run : run (lru_cache.init 4 : lru_cache Nat Nat) demo_ops5 = some demo5 := by
  decide

theorem demo7_run : run (lru_cache.init 4 : lru_cache Nat Nat) demo_ops7 = some demo7 := by
  decide

theorem demo1_run :
    run (lru_cache.init 4 : lru_cache Nat Nat) [Op.insert 1 11 true] = some demo1 := by
  decide

theorem demo_pinned_run :
    run (lru_cache.init 4 : lru_cache Nat Nat) [Op.insert 1 10 false] = some demo_pinned := by
  decide

theorem demo5_reachable : Reachable demo5 :=
  run_reachable (Reachable.init 4) demo5_run

theorem demo7_reachable : Reachable demo7 :=
  run_reachable (Reachable.init 4) demo7_run

theorem demo1_reachable : Reachable demo1 :=
  run_reachable (Reachable.init 4) demo1_run

theorem demo_pinned_reachable : Reachable demo_pinned :=
  run_reachable (Reachable.init 4) demo_pinned_run

/-! ### Claim C1 -/

/-- Claim C1 as stated is false: in the reachable state `demo5` the key 5
is present in the index, yet `insert_on_missing(5, 99)` does not leave the
cache unchanged — the eviction check runs before the presence test and
here it evicts keys 1 and 2 (afterwards `get 1` misses). -/
theorem insert_on_missing_present_evicts :
    run (lru_cache.init 4 : lru_cache Nat Nat) demo_ops5 = some demo5 ∧
    (lru_cache.find_in_index demo5 5).isSome = true ∧
    (lru_cache.get demo5 1).1 = some 11 ∧
    lru_cache.insert_on_missing demo5 5 99 ≠ some demo5 ∧
    (lru_cache.insert_on_missing demo5 5 99).map (fun s => (lru_cache.get s 1).1) =
      some none := by
  decide

/-- Claim C1, amended: when key `k` is present and the eviction trigger
does not fire (`free_nodes + pinned_count ≥ capacity`), `insert_on_missing`
leaves the whole cache state unchanged, for every value `v`.  (In general
the eviction check runs before the presence test and may change the
state.) -/
theorem insert_on_missing_present_noop {κ ν : Type} [DecidableEq κ]
    (s : lru_cache κ ν) (k : κ) (v : ν)
    (hfull : s.max_size ≤ s.free_nodes.length + s.nr_unevicted)
    (hpres : (lru_cache.find_in_index s k).isSome = true) :
    lru_cache.insert_on_missing s k v = some s := by
  have hmr : lru_cache.make_room_for_insert s = some s := by
    rw [lru_cache.make_room_for_insert, if_neg (by omega)]
  rw [lru_cache.insert_on_missing, lru_cache.insert_check, hmr]
  cases hf : lru_cache.find_in_index s k with
  | none => rw [hf] at hpres; exact absurd hpres (by simp)
  | some n => simp [hf]

/-- Witness for `insert_on_missing_present_noop` at the reachable state
`demo1` (key 1 present, free pool far from the trigger). -/
theorem insert_on_missing_present_noop_witness :
    lru_cache.insert_on_missing demo1 1 99 = some demo1 :=
  insert_on_missing_present_noop demo1 1 99 (by decide) (by decide)

/-! ### Claim C2 -/

/-- Claim C2 fails on the code: on a capacity-4 cache, after four distinct
pinned inserts the trigger `free_nodes + pinned_count < capacity` can never
fire again (`pinned_count = capacity`), so no eviction ever runs and the
fifth evictable insert finds the free pool empty — `allocate_node` pops an
empty `std::stack`, which is undefined behaviour (modelled as `none`). -/
theorem pinned_capacity_pool_exhaustion :
    run (lru_cache.init 4 : lru_cache Nat Nat)
      ([Op.insert 100 0 false, Op.insert 101 0 false,
        Op.insert 102 0 false, Op.insert 103 0 false] ++
       [Op.insert 200 0 true, Op.insert 201 0 true, Op.insert 202 0 true,
        Op.insert 203 0 true, Op.insert 204 0 true, Op.insert 205 0 true,
        Op.insert 206 0 true, Op.insert 207 0 true]) = none ∧
    run (lru_cache.init 4 : lru_cache Nat Nat)
      ([Op.insert 100 0 false, Op.insert 101 0 false,
        Op.insert 102 0 false, Op.insert 103 0 false] ++
       [Op.insert 200 0 true, Op.insert 201 0 true, Op.insert 202 0 true,
        Op.insert 203 0 true, Op.insert 204 0 true]) = none := by
  decide

/-! ### Claim C3 -/

/-- Claim C3 as stated is false: after inserting keys 1..5 (evictable,
values 11..15) into a capacity-4 cache, `get 1` is a hit returning 11, not
a miss — the eviction trigger `free + pinned < capacity` has not fired yet
(it first fires during the insertion of a sixth key). -/
theorem five_inserts_get_one_hits :
    run (lru_cache.init 4 : lru_cache Nat Nat) demo_ops5 = some demo5 ∧
    (lru_cache.get demo5 1).1 = some 11 ∧
    (lru_cache.get demo5 1).1 ≠ none := by
  decide

/-- Claim C3, amended: after inserting keys 1,2,3,4,5 (all evictable,
values 11..15) into a fresh capacity-4 cache, no eviction has occurred:
`get 1` returns 11 (a hit), `get 5` returns 15, and all five keys remain
resident. -/
theorem five_inserts_capacity_four_resident :
    run (lru_cache.init 4 : lru_cache Nat Nat) demo_ops5 = some demo5 ∧
    (lru_cache.get demo5 1).1 = some 11 ∧
    (lru_cache.get demo5 5).1 = some 15 ∧
    ((lru_cache.find_in_index demo5 1).isSome = true ∧
     (lru_cache.find_in_index demo5 2).isSome = true ∧
     (lru_cache.find_in_index demo5 3).isSome = true ∧
     (lru_cache.find_in_index demo5 4).isSome = true ∧
     (lru_cache.find_in_index demo5 5).isSome = true) := by
  decide

/-! ### Claim C7, counterexample part -/

/-- Claim C7 as stated is false: in the reachable state `demo7` the key 3
is present on the evictable list and `pinned_count = 0`, yet
`insert(3, 99, false)` changes its class — the pre-insert eviction batch
evicts the node for key 3, and the key is then reinserted as a pinned
node, so the stored flag flips to `false` and the pinned counter rises. -/
theorem insert_present_reclassifies_after_eviction :
    run (lru_cache.init 4 : lru_cache Nat Nat) demo_ops7 = some demo7 ∧
    (lru_cache.find_in_index demo7 3).map Node.evictable = some true ∧
    demo7.nr_unevicted = 0 ∧
    (lru_cache.insert demo7 3 99 false).map lru_cache.nr_unevicted = some 1 ∧
    (lru_cache.insert demo7 3 99 false).map
      (fun s => (lru_cache.find_in_index s 3).map Node.evictable) =
      some (some false) := by
  decide


/-! ### The data-structure invariant -/

/-- The representation invariant `lru_cache` maintains between public
operations (the spec's invariants 3, 5, 6, 7 plus the derived-parameter
equations; the timestamp invariant 4 is treated separately, see
`timestamps_bounded_monotone`, because the 64-bit clock wraps). -/
structure CacheInv {κ ν : Type} (s : lru_cache κ ν) : Prop where
  soft_eq : s.soft_promotion = s.max_size / 2
  batch_eq : s.batch_evict_size = min 3 (s.max_size - s.soft_promotion)
  nr_eq : s.nr_unevicted = s.unevicted_list.length
  perm : (s.free_nodes ++ (s.lru.map Node.id ++ s.unevicted_list.map Node.id)).Perm
      (List.range (2 * s.max_size))
  keys_nodup : ((s.lru ++ s.unevicted_list).map Node.key).Nodup
  lru_flags : ∀ n ∈ s.lru, n.evictable = true
  unev_flags : ∀ n ∈ s.unevicted_list, n.evictable = false

theorem CacheInv.ids_nodup {κ ν : Type} {s : lru_cache κ ν} (h : CacheInv s) :
    (s.free_nodes ++ (s.lru.map Node.id ++ s.unevicted_list.map Node.id)).Nodup :=
  h.perm.symm.nodup (List.nodup_range _)

theorem CacheInv.live_ids_nodup {κ ν : Type} {s : lru_cache κ ν} (h : CacheInv s) :
    ((s.lru ++ s.unevicted_list).map Node.id).Nodup := by
  have hids := h.ids_nodup
  rw [List.nodup_append] at hids
  rw [List.map_append]
  exact hids.2.1

theorem CacheInv.length_sum {κ ν : Type} {s : lru_cache κ ν} (h : CacheInv s) :
    s.free_nodes.length + (s.lru.length + s.unevicted_list.length) = 2 * s.max_size := by
  have := h.perm.length_eq
  simpa using this

/-- Removing the unique node with a given slot id from a list and putting
it back in front is a permutation. -/
theorem perm_cons_filter_of_mem {κ ν : Type} {l : List (Node κ ν)} {n : Node κ ν}
    (hmem : n ∈ l) (hnd : (l.map Node.id).Nodup) :
    l.Perm (n :: l.filter (fun m => decide (m.id ≠ n.id))) := by
  induction l with
  | nil => cases hmem
  | cons a tl ih =>
    rw [List.map_cons, List.nodup_cons] at hnd
    rcases List.mem_cons.mp hmem with rfl | htl
    · have htlf : tl.filter (fun m => decide (m.id ≠ n.id)) = tl := by
        apply List.filter_eq_self.mpr
        intro m hm
        simp only [decide_eq_true_eq]
        exact fun he => hnd.1 (he ▸ List.mem_map_of_mem Node.id hm)
      rw [List.filter_cons_of_neg (by simp), htlf]
    · have hane : ¬(a.id = n.id) := by
        intro he
        exact hnd.1 (he ▸ List.mem_map_of_mem Node.id htl)
      rw [List.filter_cons_of_pos (by simpa using hane)]
      exact ((ih htl hnd.2).cons a).trans (List.Perm.swap n a _)

/-- A filter that removes a slot id not present in the list is the
identity. -/
theorem filter_ne_id_eq_self {κ ν : Type} {l : List (Node κ ν)} {nid : Nat}
    (h : nid ∉ l.map Node.id) : l.filter (fun m => decide (m.id ≠ nid)) = l := by
  apply List.filter_eq_self.mpr
  intro m hm
  simp only [decide_eq_true_eq]
  exact fun he => h (he ▸ List.mem_map_of_mem Node.id hm)

/-- Stamping the access time of the node in a given slot does not change
the image of the list under a projection that ignores `access_time`. -/
theorem map_access_update_map {κ ν α : Type} (l : List (Node κ ν)) (nid t : Nat)
    (g : Node κ ν → α) (hg : ∀ m : Node κ ν, g { m with access_time := t } = g m) :
    (l.map (fun m => if m.id = nid then { m with access_time := t } else m)).map g =
      l.map g := by
  induction l with
  | nil => rfl
  | cons a tl ih =>
    simp only [List.map_cons, ih]
    by_cases h : a.id = nid
    · rw [if_pos h, hg a]
    · rw [if_neg h]

/-- Overwriting the value of the node in a given slot does not change the
image of the list under a projection that ignores `value`. -/
theorem map_value_update_map {κ ν α : Type} (l : List (Node κ ν)) (nid : Nat) (v : ν)
    (g : Node κ ν → α) (hg : ∀ m : Node κ ν, g { m with value := v } = g m) :
    (l.map (fun m => if m.id = nid then { m with value := v } else m)).map g =
      l.map g := by
  induction l with
  | nil => rfl
  | cons a tl ih =>
    simp only [List.map_cons, ih]
    by_cases h : a.id = nid
    · rw [if_pos h, hg a]
    · rw [if_neg h]

/-! ### Invariant preservation -/

theorem lru_touch_of_find_none {κ ν : Type} [DecidableEq κ] {s : lru_cache κ ν} {nid : Nat}
    (hf : (lru_cache.live s).find? (fun n => decide (n.id = nid)) = none) :
    lru_cache.lru_touch s nid = s := by
  unfold lru_cache.lru_touch
  rw [hf]

theorem lru_touch_of_find_some {κ ν : Type} [DecidableEq κ] {s : lru_cache κ ν} {nid : Nat}
    {n : Node κ ν}
    (hf : (lru_cache.live s).find? (fun m => decide (m.id = nid)) = some n) :
    lru_cache.lru_touch s nid =
      if s.soft_promotion < u64_sub (u64 (s.current_time + 1)) n.promotion_time ∧
          n.evictable = true then
        lru_cache.touch_promote s n
      else
        lru_cache.touch_plain s n := by
  unfold lru_cache.lru_touch
  rw [hf]

/-- `touch_plain` preserves the representation invariant. -/
theorem cacheInv_touch_plain {κ ν : Type} {s : lru_cache κ ν} (h : CacheInv s)
    (n : Node κ ν) : CacheInv (lru_cache.touch_plain s n) := by
  refine ⟨h.soft_eq, h.batch_eq, ?_, ?_, ?_, ?_, ?_⟩
  · rw [lru_cache.touch_plain]
    simp only [List.length_map]
    exact h.nr_eq
  · rw [lru_cache.touch_plain]
    simp only
    rw [map_access_update_map _ _ _ Node.id (fun m => rfl),
      map_access_update_map _ _ _ Node.id (fun m => rfl)]
    exact h.perm
  · rw [lru_cache.touch_plain]
    simp only
    rw [List.map_append, map_access_update_map _ _ _ Node.key (fun m => rfl),
      map_access_update_map _ _ _ Node.key (fun m => rfl), ← List.map_append]
    exact h.keys_nodup
  · intro m' hm'
    rw [lru_cache.touch_plain] at hm'
    simp only at hm'
    rcases List.mem_map.mp hm' with ⟨m, hm, rfl⟩
    by_cases hid : m.id = n.id
    · simp only [hid, if_true]
      exact h.lru_flags m hm
    · simp only [hid, if_false]
      exact h.lru_flags m hm
  · intro m' hm'
    rw [lru_cache.touch_plain] at hm'
    simp only at hm'
    rcases List.mem_map.mp hm' with ⟨m, hm, rfl⟩
    by_cases hid : m.id = n.id
    · simp only [hid, if_true]
      exact h.unev_flags m hm
    · simp only [hid, if_false]
      exact h.unev_flags m hm

/-- `touch_promote` preserves the representation invariant when applied to
a live evictable node. -/
theorem cacheInv_touch_promote {κ ν : Type} {s : lru_cache κ ν} (h : CacheInv s)
    {n : Node κ ν} (hn_mem : n ∈ s.lru ++ s.unevicted_list)
    (hev : n.evictable = true) : CacheInv (lru_cache.touch_promote s n) := by
  have hn_lru : n ∈ s.lru := by
    rcases List.mem_append.mp hn_mem with h1 | h2
    · exact h1
    · exact absurd (h.unev_flags n h2) (by rw [hev]; simp)
  have hlive_nd := h.live_ids_nodup
  rw [List.map_append, List.nodup_append] at hlive_nd
  obtain ⟨hnd_lru, hnd_unev, hdisj⟩ := hlive_nd
  have hid_unev : n.id ∉ s.unevicted_list.map Node.id :=
    fun hmem2 => hdisj (List.mem_map_of_mem Node.id hn_lru) hmem2
  have hunev_eq :
      s.unevicted_list.filter (fun m => decide (m.id ≠ n.id)) = s.unevicted_list :=
    filter_ne_id_eq_self hid_unev
  have hperm_lru :
      s.lru.Perm (n :: s.lru.filter (fun m => decide (m.id ≠ n.id))) :=
    perm_cons_filter_of_mem hn_lru hnd_lru
  refine ⟨h.soft_eq, h.batch_eq, ?_, ?_, ?_, ?_, ?_⟩
  · rw [lru_cache.touch_promote]
    simp only [hunev_eq]
    exact h.nr_eq
  · rw [lru_cache.touch_promote]
    simp only [hunev_eq]
    exact List.Perm.trans
      (List.Perm.append_left s.free_nodes
        (List.Perm.append_right _ ((hperm_lru.map Node.id).symm))) h.perm
  · rw [lru_cache.touch_promote]
    simp only [hunev_eq]
    exact ((hperm_lru.append_right s.unevicted_list).map Node.key).nodup h.keys_nodup
  · intro m hm
    rw [lru_cache.touch_promote] at hm
    simp only at hm
    rcases List.mem_cons.mp hm with rfl | hm2
    · exact hev
    · exact h.lru_flags m (List.mem_of_mem_filter hm2)
  · intro m hm
    rw [lru_cache.touch_promote] at hm
    simp only [hunev_eq] at hm
    exact h.unev_flags m hm

/-- `lru_touch` preserves the representation invariant. -/
theorem cacheInv_lru_touch {κ ν : Type} [DecidableEq κ] {s : lru_cache κ ν}
    (h : CacheInv s) (nid : Nat) : CacheInv (lru_cache.lru_touch s nid) := by
  cases hf : (lru_cache.live s).find? (fun n => decide (n.id = nid)) with
  | none => rw [lru_touch_of_find_none hf]; exact h
  | some n =>
    rw [lru_touch_of_find_some hf]
    by_cases hcond :
        s.soft_promotion < u64_sub (u64 (s.current_time + 1)) n.promotion_time ∧ n.evictable = true
    · rw [if_pos hcond]
      exact cacheInv_touch_promote h (List.mem_of_find?_eq_some hf) hcond.2
    · rw [if_neg hcond]
      exact cacheInv_touch_plain h n

/-- `set_value` preserves the representation invariant. -/
theorem cacheInv_set_value {κ ν : Type} {s : lru_cache κ ν} (h : CacheInv s)
    (nid : Nat) (v : ν) : CacheInv (lru_cache.set_value s nid v) := by
  refine ⟨h.soft_eq, h.batch_eq, ?_, ?_, ?_, ?_, ?_⟩
  · rw [lru_cache.set_value]
    simp only [List.length_map]
    exact h.nr_eq
  · rw [lru_cache.set_value]
    simp only
    rw [map_value_update_map _ _ _ Node.id (fun m => rfl),
      map_value_update_map _ _ _ Node.id (fun m => rfl)]
    exact h.perm
  · rw [lru_cache.set_value]
    simp only
    rw [List.map_append, map_value_update_map _ _ _ Node.key (fun m => rfl),
      map_value_update_map _ _ _ Node.key (fun m => rfl), ← List.map_append]
    exact h.keys_nodup
  · intro m' hm'
    rw [lru_cache.set_value] at hm'
    simp only at hm'
    rcases List.mem_map.mp hm' with ⟨m, hm, rfl⟩
    by_cases hid : m.id = nid
    · rw [if_pos hid]
      exact h.lru_flags m hm
    · rw [if_neg hid]
      exact h.lru_flags m hm
  · intro m' hm'
    rw [lru_cache.set_value] at hm'
    simp only at hm'
    rcases List.mem_map.mp hm' with ⟨m, hm, rfl⟩
    by_cases hid : m.id = nid
    · rw [if_pos hid]
      exact h.unev_flags m hm
    · rw [if_neg hid]
      exact h.unev_flags m hm

/-- Under the invariant, the eviction trigger implies that the evictable
list is strictly longer than the capacity. -/
theorem cacheInv_trigger_lru {κ ν : Type} {s : lru_cache κ ν} (h : CacheInv s)
    (ht : s.free_nodes.length + s.nr_unevicted < s.max_size) :
    s.max_size < s.lru.length := by
  have hsum := h.length_sum
  have hnr := h.nr_eq
  omega

/-- Under the invariant, the eviction batch size never exceeds the
capacity. -/
theorem cacheInv_batch_le {κ ν : Type} {s : lru_cache κ ν} (h : CacheInv s) :
    s.batch_evict_size ≤ s.max_size := by
  rw [h.batch_eq]
  exact le_trans (min_le_right _ _) (Nat.sub_le _ _)

theorem make_room_of_no_trigger {κ ν : Type} {s : lru_cache κ ν}
    (ht : ¬ s.free_nodes.length + s.nr_unevicted < s.max_size) :
    lru_cache.make_room_for_insert s = some s := by
  rw [lru_cache.make_room_for_insert, if_neg ht]

theorem make_room_of_trigger {κ ν : Type} {s : lru_cache κ ν}
    (ht : s.free_nodes.length + s.nr_unevicted < s.max_size)
    (hlen : s.batch_evict_size ≤ s.lru.length) :
    lru_cache.make_room_for_insert s = some { s with
      lru := s.lru.take (s.lru.length - s.batch_evict_size)
      free_nodes :=
        (s.lru.drop (s.lru.length - s.batch_evict_size)).map Node.id ++ s.free_nodes } := by
  rw [lru_cache.make_room_for_insert, if_pos ht, if_pos hlen]

/-- Under the invariant the eviction check never underflows the list, and
the resulting state satisfies the invariant again, with the pinned side
and the clock untouched and the live nodes a subset of the old ones. -/
theorem cacheInv_make_room {κ ν : Type} {s : lru_cache κ ν} (h : CacheInv s) :
    ∃ s', lru_cache.make_room_for_insert s = some s' ∧ CacheInv s' ∧
      s'.max_size = s.max_size ∧ s'.soft_promotion = s.soft_promotion ∧
      s'.batch_evict_size = s.batch_evict_size ∧
      s'.unevicted_list = s.unevicted_list ∧ s'.nr_unevicted = s.nr_unevicted ∧
      s'.current_time = s.current_time ∧
      (∀ m ∈ s'.lru ++ s'.unevicted_list, m ∈ s.lru ++ s.unevicted_list) := by
  by_cases ht : s.free_nodes.length + s.nr_unevicted < s.max_size
  · have hmax := cacheInv_trigger_lru h ht
    have hlen : s.batch_evict_size ≤ s.lru.length :=
      le_trans (cacheInv_batch_le h) (le_of_lt hmax)
    refine ⟨_, make_room_of_trigger ht hlen, ?_, rfl, rfl, rfl, rfl, rfl, rfl, ?_⟩
    · have hsplit : s.lru.map Node.id =
          (s.lru.take (s.lru.length - s.batch_evict_size)).map Node.id ++
          (s.lru.drop (s.lru.length - s.batch_evict_size)).map Node.id := by
        rw [← List.map_append, List.take_append_drop]
      refine ⟨h.soft_eq, h.batch_eq, h.nr_eq, ?_, ?_, ?_, h.unev_flags⟩
      · refine List.Perm.trans ?_ h.perm
        rw [hsplit, List.perm_iff_count]
        intro a
        simp only [List.count_append]
        omega
      · exact h.keys_nodup.sublist
          (((List.take_sublist _ _).append_right _).map _)
      · intro m hm
        exact h.lru_flags m (List.take_subset _ _ hm)
    · intro m hm
      rcases List.mem_append.mp hm with hm1 | hm1
      · exact List.mem_append_left _ (List.take_subset _ _ hm1)
      · exact List.mem_append_right _ hm1
  · exact ⟨s, make_room_of_no_trigger ht, h, rfl, rfl, rfl, rfl, rfl, rfl,
      fun m hm => hm⟩
theorem do_insert_of_empty {κ ν : Type} [DecidableEq κ] {s : lru_cache κ ν}
    (hfree : s.free_nodes = []) (key : κ) (value : ν) (evictable : Bool) :
    lru_cache.do_insert s key value evictable = none := by
  unfold lru_cache.do_insert
  rw [hfree]

theorem do_insert_of_cons_true {κ ν : Type} [DecidableEq κ] {s : lru_cache κ ν}
    {nid : Nat} {rest : List Nat} (hfree : s.free_nodes = nid :: rest)
    (key : κ) (value : ν) :
    lru_cache.do_insert s key value true = some { s with
      free_nodes := rest
      current_time := u64 (s.current_time + 1)
      lru := ⟨nid, key, value, u64 (s.current_time + 1), u64 (s.current_time + 1), true⟩
        :: s.lru } := by
  unfold lru_cache.do_insert
  rw [hfree]
  rfl

theorem do_insert_of_cons_false {κ ν : Type} [DecidableEq κ] {s : lru_cache κ ν}
    {nid : Nat} {rest : List Nat} (hfree : s.free_nodes = nid :: rest)
    (key : κ) (value : ν) :
    lru_cache.do_insert s key value false = some { s with
      free_nodes := rest
      current_time := u64 (s.current_time + 1)
      unevicted_list :=
        ⟨nid, key, value, u64 (s.current_time + 1), u64 (s.current_time + 1), false⟩ ::
          s.unevicted_list } := by
  unfold lru_cache.do_insert
  rw [hfree]
  rfl

/-- Inserting a fresh key (absent from the index) through `do_insert`,
with the pinned-counter bump `insert` performs on a pinned insertion,
preserves the representation invariant. -/
theorem cacheInv_insert_fresh {κ ν : Type} [DecidableEq κ] {s : lru_cache κ ν}
    (h : CacheInv s) {k : κ} {v : ν} {e : Bool}
    (hk : lru_cache.find_in_index s k = none) {s2 : lru_cache κ ν}
    (hd : lru_cache.do_insert s k v e = some s2) :
    CacheInv (if e then s2 else { s2 with nr_unevicted := s2.nr_unevicted + 1 }) := by
  have hknotin : ∀ m ∈ s.lru ++ s.unevicted_list, ¬ (m.key = k) := by
    intro m hm
    have := List.find?_eq_none.mp hk m hm
    simpa using this
  cases hfree : s.free_nodes with
  | nil =>
    rw [do_insert_of_empty hfree] at hd
    exact absurd hd (by simp)
  | cons nid rest =>
    have hids := h.ids_nodup
    rw [hfree] at hids
    rw [List.cons_append, List.nodup_cons] at hids
    cases e with
    | true =>
      rw [do_insert_of_cons_true hfree] at hd
      cases hd
      rw [if_pos rfl]
      refine ⟨h.soft_eq, h.batch_eq, h.nr_eq, ?_, ?_, ?_, h.unev_flags⟩
      · dsimp only
        refine List.Perm.trans ?_ h.perm
        rw [hfree]
        simp only [List.map_cons, List.cons_append]
        exact List.perm_middle
      · dsimp only
        rw [List.cons_append, List.map_cons, List.nodup_cons]
        refine ⟨?_, h.keys_nodup⟩
        intro hmem
        rcases List.mem_map.mp hmem with ⟨m, hm, hkey⟩
        exact hknotin m hm hkey
      · intro m hm
        dsimp only at hm
        rcases List.mem_cons.mp hm with rfl | hm2
        · rfl
        · exact h.lru_flags m hm2
    | false =>
      rw [do_insert_of_cons_false hfree] at hd
      cases hd
      rw [if_neg (by simp)]
      refine ⟨h.soft_eq, h.batch_eq, ?_, ?_, ?_, ?_, ?_⟩
      · dsimp only
        simp only [List.length_cons]
        rw [h.nr_eq]
      · dsimp only
        refine List.Perm.trans ?_ h.perm
        rw [hfree]
        simp only [List.map_cons]
        exact (List.Perm.append_left rest List.perm_middle).trans List.perm_middle
      · dsimp only
        rw [List.map_append, List.map_cons]
        have hnew : (k :: (s.lru.map Node.key ++ s.unevicted_list.map Node.key)).Nodup := by
          rw [List.nodup_cons]
          refine ⟨?_, by rw [← List.map_append]; exact h.keys_nodup⟩
          intro hmem
          rw [← List.map_append] at hmem
          rcases List.mem_map.mp hmem with ⟨m, hm, hkey⟩
          exact hknotin m hm hkey
        exact List.perm_middle.symm.nodup hnew
      · intro m hm
        dsimp only at hm
        exact h.lru_flags m hm
      · intro m hm
        dsimp only at hm
        rcases List.mem_cons.mp hm with rfl | hm2
        · rfl
        · exact h.unev_flags m hm2

theorem insert_check_eq {κ ν : Type} [DecidableEq κ] {s s1 : lru_cache κ ν} {k : κ}
    (hmr : lru_cache.make_room_for_insert s = some s1) :
    lru_cache.insert_check s k = some (s1, lru_cache.find_in_index s1 k) := by
  rw [lru_cache.insert_check, hmr]

theorem insert_of_present {κ ν : Type} [DecidableEq κ] {s s1 : lru_cache κ ν} {k : κ}
    {n : Node κ ν} (hmr : lru_cache.make_room_for_insert s = some s1)
    (hf : lru_cache.find_in_index s1 k = some n) (v : ν) (e : Bool) :
    lru_cache.insert s k v e =
      some (lru_cache.lru_touch (lru_cache.set_value s1 n.id v) n.id) := by
  rw [lru_cache.insert, insert_check_eq hmr, hf]

theorem insert_of_absent {κ ν : Type} [DecidableEq κ] {s s1 : lru_cache κ ν} {k : κ}
    (hmr : lru_cache.make_room_for_insert s = some s1)
    (hf : lru_cache.find_in_index s1 k = none) (v : ν) (e : Bool) :
    lru_cache.insert s k v e =
      match lru_cache.do_insert s1 k v e with
      | none => none
      | some s2 =>
        some (if e then s2 else { s2 with nr_unevicted := s2.nr_unevicted + 1 }) := by
  rw [lru_cache.insert, insert_check_eq hmr, hf]

theorem insert_on_missing_of_present {κ ν : Type} [DecidableEq κ]
    {s s1 : lru_cache κ ν} {k : κ} {n : Node κ ν}
    (hmr : lru_cache.make_room_for_insert s = some s1)
    (hf : lru_cache.find_in_index s1 k = some n) (v : ν) :
    lru_cache.insert_on_missing s k v = some s1 := by
  rw [lru_cache.insert_on_missing, insert_check_eq hmr, hf]

theorem insert_on_missing_of_absent {κ ν : Type} [DecidableEq κ]
    {s s1 : lru_cache κ ν} {k : κ}
    (hmr : lru_cache.make_room_for_insert s = some s1)
    (hf : lru_cache.find_in_index s1 k = none) (v : ν) :
    lru_cache.insert_on_missing s k v = lru_cache.do_insert s1 k v true := by
  rw [lru_cache.insert_on_missing, insert_check_eq hmr, hf]

theorem get_of_hit {κ ν : Type} [DecidableEq κ] {s : lru_cache κ ν} {k : κ}
    {n : Node κ ν} (hf : lru_cache.find_in_index s k = some n) :
    lru_cache.get s k = (some n.value, lru_cache.lru_touch s n.id) := by
  rw [lru_cache.get, hf]

theorem get_of_miss {κ ν : Type} [DecidableEq κ] {s : lru_cache κ ν} {k : κ}
    (hf : lru_cache.find_in_index s k = none) :
    lru_cache.get s k = (none, s) := by
  rw [lru_cache.get, hf]

/-- Every public operation that completes preserves the representation
invariant. -/
theorem cacheInv_apply_op {κ ν : Type} [DecidableEq κ] {s s' : lru_cache κ ν}
    (h : CacheInv s) {op : Op κ ν} (hstep : apply_op s op = some s') : CacheInv s' := by
  cases op with
  | get k =>
    rw [apply_op] at hstep
    cases hstep
    cases hf : lru_cache.find_in_index s k with
    | some n =>
      rw [get_of_hit hf]
      exact cacheInv_lru_touch h n.id
    | none =>
      rw [get_of_miss hf]
      exact h
  | insert k v e =>
    rw [apply_op] at hstep
    obtain ⟨s1, hmr, hinv1, -, -, -, -, -, -, -⟩ := cacheInv_make_room h
    cases hf : lru_cache.find_in_index s1 k with
    | some n =>
      rw [insert_of_present hmr hf v e] at hstep
      cases hstep
      exact cacheInv_lru_touch (cacheInv_set_value hinv1 n.id v) n.id
    | none =>
      rw [insert_of_absent hmr hf v e] at hstep
      cases hd : lru_cache.do_insert s1 k v e with
      | none =>
        rw [hd] at hstep
        exact absurd hstep (by simp)
      | some s2 =>
        rw [hd] at hstep
        cases hstep
        exact cacheInv_insert_fresh hinv1 hf hd
  | insert_on_missing k v =>
    rw [apply_op] at hstep
    obtain ⟨s1, hmr, hinv1, -, -, -, -, -, -, -⟩ := cacheInv_make_room h
    cases hf : lru_cache.find_in_index s1 k with
    | some n =>
      rw [insert_on_missing_of_present hmr hf v] at hstep
      cases hstep
      exact hinv1
    | none =>
      rw [insert_on_missing_of_absent hmr hf v] at hstep
      have := cacheInv_insert_fresh hinv1 hf hstep
      exact this

/-- The constructor establishes the representation invariant. -/
theorem cacheInv_init {κ ν : Type} (c : Nat) :
    CacheInv (lru_cache.init c : lru_cache κ ν) := by
  refine ⟨rfl, rfl, rfl, ?_, ?_, ?_, ?_⟩
  · simp [lru_cache.init]
  · simp [lru_cache.init]
  · intro n hn
    simp [lru_cache.init] at hn
  · intro n hn
    simp [lru_cache.init] at hn

/-- Every reachable state satisfies the representation invariant. -/
theorem cacheInv_reachable {κ ν : Type} [DecidableEq κ] {s : lru_cache κ ν}
    (hs : Reachable s) : CacheInv s := by
  induction hs with
  | init c => exact cacheInv_init c
  | step op hr hstep ih => exact cacheInv_apply_op ih hstep

/-! ### Freshness of access times -/

theorem make_room_mem {κ ν : Type} {s s1 : lru_cache κ ν}
    (hmr : lru_cache.make_room_for_insert s = some s1) :
    (∀ m ∈ s1.lru ++ s1.unevicted_list, m ∈ s.lru ++ s.unevicted_list) ∧
    s1.current_time = s.current_time := by
  rw [lru_cache.make_room_for_insert] at hmr
  by_cases ht : s.free_nodes.length + s.nr_unevicted < s.max_size
  · rw [if_pos ht] at hmr
    by_cases hlen : s.batch_evict_size ≤ s.lru.length
    · rw [if_pos hlen] at hmr
      cases hmr
      refine ⟨?_, rfl⟩
      intro m hm
      rcases List.mem_append.mp hm with hm1 | hm1
      · exact List.mem_append_left _ (List.take_subset _ _ hm1)
      · exact List.mem_append_right _ hm1
    · rw [if_neg hlen] at hmr
      exact absurd hmr (by simp)
  · rw [if_neg ht] at hmr
    cases hmr
    exact ⟨fun m hm => hm, rfl⟩

/-- Any node on the lists after a touch whose slot was found either was
live before the touch (in a different slot than the touched one) or
carries the freshly incremented access time. -/
theorem touch_mem_of_found {κ ν : Type} [DecidableEq κ] {s : lru_cache κ ν}
    {nid : Nat} {n m : Node κ ν}
    (hf : (lru_cache.live s).find? (fun x => decide (x.id = nid)) = some n)
    (hm : m ∈ (lru_cache.lru_touch s nid).lru ++ (lru_cache.lru_touch s nid).unevicted_list) :
    (m ∈ s.lru ++ s.unevicted_list ∧ m.id ≠ nid) ∨
      m.access_time = u64 (s.current_time + 1) := by
  have hn_id : n.id = nid := by
    have := List.find?_some hf
    simpa using this
  subst hn_id
  rw [lru_touch_of_find_some hf] at hm
  by_cases hcond :
      s.soft_promotion < u64_sub (u64 (s.current_time + 1)) n.promotion_time ∧ n.evictable = true
  · rw [if_pos hcond] at hm
    rw [lru_cache.touch_promote] at hm
    dsimp only at hm
    rcases List.mem_append.mp hm with hm1 | hm1
    · rcases List.mem_cons.mp hm1 with rfl | hm2
      · exact Or.inr rfl
      · have := List.of_mem_filter hm2
        simp only [decide_eq_true_eq] at this
        exact Or.inl ⟨List.mem_append_left _ (List.mem_of_mem_filter hm2), this⟩
    · have := List.of_mem_filter hm1
      simp only [decide_eq_true_eq] at this
      exact Or.inl ⟨List.mem_append_right _ (List.mem_of_mem_filter hm1), this⟩
  · rw [if_neg hcond] at hm
    rw [lru_cache.touch_plain] at hm
    dsimp only at hm
    rcases List.mem_append.mp hm with hm1 | hm1 <;>
      rcases List.mem_map.mp hm1 with ⟨m0, hm0, rfl⟩
    · by_cases hid : m0.id = n.id
      · rw [if_pos hid]
        exact Or.inr rfl
      · rw [if_neg hid]
        exact Or.inl ⟨List.mem_append_left _ hm0, hid⟩
    · by_cases hid : m0.id = n.id
      · rw [if_pos hid]
        exact Or.inr rfl
      · rw [if_neg hid]
        exact Or.inl ⟨List.mem_append_right _ hm0, hid⟩

/-- A node that survives `set_value` in a slot other than the overwritten
one was on the lists before. -/
theorem set_value_mem_ne {κ ν : Type} {s : lru_cache κ ν} {nid : Nat} {v : ν}
    {m : Node κ ν}
    (hm : m ∈ (lru_cache.set_value s nid v).lru ++
      (lru_cache.set_value s nid v).unevicted_list)
    (hne : m.id ≠ nid) : m ∈ s.lru ++ s.unevicted_list := by
  rw [lru_cache.set_value] at hm
  dsimp only at hm
  rcases List.mem_append.mp hm with hm1 | hm1 <;>
    rcases List.mem_map.mp hm1 with ⟨m0, hm0, rfl⟩
  · by_cases hid : m0.id = nid
    · rw [if_pos hid] at hne ⊢
      exact absurd hid hne
    · rw [if_neg hid]
      exact List.mem_append_left _ hm0
  · by_cases hid : m0.id = nid
    · rw [if_pos hid] at hne ⊢
      exact absurd hid hne
    · rw [if_neg hid]
      exact List.mem_append_right _ hm0

theorem insert_absent_cons_true {κ ν : Type} [DecidableEq κ] {s s1 : lru_cache κ ν}
    {k : κ} {nid : Nat} {rest : List Nat}
    (hmr : lru_cache.make_room_for_insert s = some s1)
    (hf : lru_cache.find_in_index s1 k = none)
    (hfree : s1.free_nodes = nid :: rest) (v : ν) :
    lru_cache.insert s k v true = some { s1 with
      free_nodes := rest
      current_time := u64 (s1.current_time + 1)
      lru := ⟨nid, k, v, u64 (s1.current_time + 1), u64 (s1.current_time + 1), true⟩
        :: s1.lru } := by
  rw [insert_of_absent hmr hf v true, do_insert_of_cons_true hfree]
  rfl

theorem insert_absent_cons_false {κ ν : Type} [DecidableEq κ] {s s1 : lru_cache κ ν}
    {k : κ} {nid : Nat} {rest : List Nat}
    (hmr : lru_cache.make_room_for_insert s = some s1)
    (hf : lru_cache.find_in_index s1 k = none)
    (hfree : s1.free_nodes = nid :: rest) (v : ν) :
    lru_cache.insert s k v false = some { s1 with
      free_nodes := rest
      current_time := u64 (s1.current_time + 1)
      unevicted_list :=
        ⟨nid, k, v, u64 (s1.current_time + 1), u64 (s1.current_time + 1), false⟩ ::
          s1.unevicted_list
      nr_unevicted := s1.nr_unevicted + 1 } := by
  rw [insert_of_absent hmr hf v false, do_insert_of_cons_false hfree]
  rfl

theorem insert_on_missing_absent_cons {κ ν : Type} [DecidableEq κ]
    {s s1 : lru_cache κ ν} {k : κ} {nid : Nat} {rest : List Nat}
    (hmr : lru_cache.make_room_for_insert s = some s1)
    (hf : lru_cache.find_in_index s1 k = none)
    (hfree : s1.free_nodes = nid :: rest) (v : ν) :
    lru_cache.insert_on_missing s k v = some { s1 with
      free_nodes := rest
      current_time := u64 (s1.current_time + 1)
      lru := ⟨nid, k, v, u64 (s1.current_time + 1), u64 (s1.current_time + 1), true⟩
        :: s1.lru } := by
  rw [insert_on_missing_of_absent hmr hf v, do_insert_of_cons_true hfree]

/-- Every node on the lists after a completed public operation either was
live before the operation or carries the freshly assigned access time
`u64 (current_time + 1)`. -/
theorem fresh_access_apply_op {κ ν : Type} [DecidableEq κ] {s s' : lru_cache κ ν}
    {op : Op κ ν} (hstep : apply_op s op = some s') :
    ∀ m ∈ s'.lru ++ s'.unevicted_list,
      m ∈ s.lru ++ s.unevicted_list ∨ m.access_time = u64 (s.current_time + 1) := by
  cases op with
  | get k =>
    rw [apply_op] at hstep
    cases hstep
    cases hf : lru_cache.find_in_index s k with
    | none =>
      rw [get_of_miss hf]
      exact fun m hm => Or.inl hm
    | some n =>
      rw [get_of_hit hf]
      intro m hm
      cases hf2 : (lru_cache.live s).find? (fun x => decide (x.id = n.id)) with
      | none =>
        rw [lru_touch_of_find_none hf2] at hm
        exact Or.inl hm
      | some n2 =>
        rcases touch_mem_of_found hf2 hm with ⟨hmem, -⟩ | hacc
        · exact Or.inl hmem
        · exact Or.inr hacc
  | insert k v e =>
    rw [apply_op] at hstep
    cases hmr : lru_cache.make_room_for_insert s with
    | none =>
      rw [lru_cache.insert, lru_cache.insert_check, hmr] at hstep
      exact absurd hstep (by simp)
    | some s1 =>
      obtain ⟨hsub1, htime1⟩ := make_room_mem hmr
      cases hf : lru_cache.find_in_index s1 k with
      | some n =>
        rw [insert_of_present hmr hf v e] at hstep
        cases hstep
        intro m hm
        cases hf2 : (lru_cache.live (lru_cache.set_value s1 n.id v)).find?
            (fun x => decide (x.id = n.id)) with
        | none =>
          rw [lru_touch_of_find_none hf2] at hm
          have hm2 := hm
          by_cases hne : m.id = n.id
          · -- the touched slot still carries the pre-touch access time of a
            -- node that was live before the overwrite
            rw [lru_cache.set_value] at hm2
            dsimp only at hm2
            rcases List.mem_append.mp hm2 with hm3 | hm3 <;>
              rcases List.mem_map.mp hm3 with ⟨m0, hm0, rfl⟩
            · by_cases hid : m0.id = n.id
              · exfalso
                -- a node with the touched slot id exists, contradicting hf2
                have : ∃ x ∈ lru_cache.live (lru_cache.set_value s1 n.id v),
                    decide (x.id = n.id) = true := by
                  refine ⟨_, hm2, ?_⟩
                  rw [if_pos hid]
                  simpa using hid
                rw [List.find?_eq_none] at hf2
                rcases this with ⟨x, hx, hxd⟩
                exact hf2 x hx hxd
              · rw [if_neg hid]
                exact Or.inl (hsub1 _ (List.mem_append_left _ hm0))
            · by_cases hid : m0.id = n.id
              · exfalso
                have : ∃ x ∈ lru_cache.live (lru_cache.set_value s1 n.id v),
                    decide (x.id = n.id) = true := by
                  refine ⟨_, hm2, ?_⟩
                  rw [if_pos hid]
                  simpa using hid
                rw [List.find?_eq_none] at hf2
                rcases this with ⟨x, hx, hxd⟩
                exact hf2 x hx hxd
              · rw [if_neg hid]
                exact Or.inl (hsub1 _ (List.mem_append_right _ hm0))
          · exact Or.inl (hsub1 _ (set_value_mem_ne hm hne))
        | some n2 =>
          rcases touch_mem_of_found hf2 hm with ⟨hmem, hne⟩ | hacc
          · exact Or.inl (hsub1 _ (set_value_mem_ne hmem hne))
          · right
            rw [hacc]
            have h3 : (lru_cache.set_value s1 n.id v).current_time = s.current_time :=
              htime1
            rw [h3]
      | none =>
        cases hfree : s1.free_nodes with
        | nil =>
          rw [insert_of_absent hmr hf v e, do_insert_of_empty hfree] at hstep
          exact absurd hstep (by simp)
        | cons nid rest =>
          cases e with
          | true =>
            rw [insert_absent_cons_true hmr hf hfree v] at hstep
            cases hstep
            intro m hm
            dsimp only at hm
            rcases List.mem_append.mp hm with hm1 | hm1
            · rcases List.mem_cons.mp hm1 with rfl | hm2
              · right
                rw [← htime1]
              · exact Or.inl (hsub1 _ (List.mem_append_left _ hm2))
            · exact Or.inl (hsub1 _ (List.mem_append_right _ hm1))
          | false =>
            rw [insert_absent_cons_false hmr hf hfree v] at hstep
            cases hstep
            intro m hm
            dsimp only at hm
            rcases List.mem_append.mp hm with hm1 | hm1
            · exact Or.inl (hsub1 _ (List.mem_append_left _ hm1))
            · rcases List.mem_cons.mp hm1 with rfl | hm2
              · right
                rw [← htime1]
              · exact Or.inl (hsub1 _ (List.mem_append_right _ hm2))
  | insert_on_missing k v =>
    rw [apply_op] at hstep
    cases hmr : lru_cache.make_room_for_insert s with
    | none =>
      rw [lru_cache.insert_on_missing, lru_cache.insert_check, hmr] at hstep
      exact absurd hstep (by simp)
    | some s1 =>
      obtain ⟨hsub1, htime1⟩ := make_room_mem hmr
      cases hf : lru_cache.find_in_index s1 k with
      | some n =>
        rw [insert_on_missing_of_present hmr hf v] at hstep
        cases hstep
        exact fun m hm => Or.inl (hsub1 m hm)
      | none =>
        cases hfree : s1.free_nodes with
        | nil =>
          rw [insert_on_missing_of_absent hmr hf v, do_insert_of_empty hfree] at hstep
          exact absurd hstep (by simp)
        | cons nid rest =>
          rw [insert_on_missing_absent_cons hmr hf hfree v] at hstep
          cases hstep
          intro m hm
          dsimp only at hm
          rcases List.mem_append.mp hm with hm1 | hm1
          · rcases List.mem_cons.mp hm1 with rfl | hm2
            · right
              rw [← htime1]
            · exact Or.inl (hsub1 _ (List.mem_append_left _ hm2))
          · exact Or.inl (hsub1 _ (List.mem_append_right _ hm1))

/-! ### Claims C4, C5, C8, C9, C10 -/

/-- Claim C4: whenever the eviction trigger fires in a reachable state,
the evictable list holds strictly more than `batch_evict_size` nodes, so
the backward walk of `make_room_for_insert` never moves past the first
element. -/
theorem evict_no_underflow {κ ν : Type} [DecidableEq κ] {s : lru_cache κ ν}
    (hs : Reachable s)
    (ht : s.free_nodes.length + s.nr_unevicted < s.max_size) :
    s.batch_evict_size < s.lru.length := by
  have h := cacheInv_reachable hs
  exact lt_of_le_of_lt (cacheInv_batch_le h) (cacheInv_trigger_lru h ht)

/-- Witness for `evict_no_underflow` at the reachable state `demo5`, where
the trigger fires (`3 + 0 < 4`) and the list holds 5 > 2 nodes. -/
theorem evict_no_underflow_witness : demo5.batch_evict_size < demo5.lru.length :=
  evict_no_underflow demo5_reachable (by decide)

/-- Claim C5: in every reachable state the eviction check does nothing
exactly when `free_nodes + pinned_count ≥ capacity`; when the trigger
fires it removes exactly `batch_evict_size = min(3, capacity −
soft_promotion_threshold)` nodes from the tail of the evictable list,
pushing their slots onto the free pool (tail-most first) and leaving the
pinned list untouched. -/
theorem make_room_spec {κ ν : Type} [DecidableEq κ] {s : lru_cache κ ν}
    (hs : Reachable s) :
    s.batch_evict_size = min 3 (s.max_size - s.soft_promotion) ∧
    (s.max_size ≤ s.free_nodes.length + s.nr_unevicted →
      lru_cache.make_room_for_insert s = some s) ∧
    (s.free_nodes.length + s.nr_unevicted < s.max_size →
      s.batch_evict_size ≤ s.lru.length ∧
      lru_cache.make_room_for_insert s = some { s with
        lru := s.lru.take (s.lru.length - s.batch_evict_size)
        free_nodes :=
          (s.lru.drop (s.lru.length - s.batch_evict_size)).map Node.id ++ s.free_nodes }) := by
  have h := cacheInv_reachable hs
  refine ⟨h.batch_eq, fun hge => make_room_of_no_trigger (by omega), fun ht => ?_⟩
  have hlen : s.batch_evict_size ≤ s.lru.length :=
    le_trans (cacheInv_batch_le h) (le_of_lt (cacheInv_trigger_lru h ht))
  exact ⟨hlen, make_room_of_trigger ht hlen⟩

/-- Witness for `make_room_spec` at the reachable state `demo5`. -/
theorem make_room_spec_witness :
    demo5.batch_evict_size = min 3 (demo5.max_size - demo5.soft_promotion) ∧
    (demo5.max_size ≤ demo5.free_nodes.length + demo5.nr_unevicted →
      lru_cache.make_room_for_insert demo5 = some demo5) ∧
    (demo5.free_nodes.length + demo5.nr_unevicted < demo5.max_size →
      demo5.batch_evict_size ≤ demo5.lru.length ∧
      lru_cache.make_room_for_insert demo5 = some { demo5 with
        lru := demo5.lru.take (demo5.lru.length - demo5.batch_evict_size)
        free_nodes := (demo5.lru.drop (demo5.lru.length - demo5.batch_evict_size)).map
          Node.id ++ demo5.free_nodes }) :=
  make_room_spec demo5_reachable

/-- Claim C8: in every reachable state the eviction trigger
`free_nodes + pinned_count < capacity` fires exactly when the evictable
list is longer than the capacity, so the moment of eviction does not
depend on how the non-free nodes split between the two lists. -/
theorem trigger_iff_lru_overflow {κ ν : Type} [DecidableEq κ] {s : lru_cache κ ν}
    (hs : Reachable s) :
    s.free_nodes.length + s.nr_unevicted < s.max_size ↔
      s.max_size < s.lru.length := by
  have h := cacheInv_reachable hs
  have hsum := h.length_sum
  have hnr := h.nr_eq
  omega

/-- Witness for `trigger_iff_lru_overflow` at the reachable state
`demo5`, whose trigger holds. -/
theorem trigger_iff_lru_overflow_witness : demo5.max_size < demo5.lru.length :=
  (trigger_iff_lru_overflow demo5_reachable).mp (by decide)

/-- Claim C9: in every reachable state the pool slots on the free stack,
the evictable list and the pinned list together are a permutation of the
`2·capacity` pool slots — each pool node is in exactly one of the three
places — and the three sizes sum to `2·capacity`. -/
theorem pool_partition {κ ν : Type} [DecidableEq κ] {s : lru_cache κ ν}
    (hs : Reachable s) :
    (s.free_nodes ++ (s.lru.map Node.id ++ s.unevicted_list.map Node.id)).Perm
      (List.range (2 * s.max_size)) ∧
    s.free_nodes.length + s.unevicted_list.length + s.lru.length = 2 * s.max_size := by
  have h := cacheInv_reachable hs
  refine ⟨h.perm, ?_⟩
  have := h.length_sum
  omega

/-- Witness for `pool_partition` at the reachable state `demo5`. -/
theorem pool_partition_witness :
    (demo5.free_nodes ++ (demo5.lru.map Node.id ++ demo5.unevicted_list.map Node.id)).Perm
      (List.range (2 * demo5.max_size)) ∧
    demo5.free_nodes.length + demo5.unevicted_list.length + demo5.lru.length =
      2 * demo5.max_size :=
  pool_partition demo5_reachable


/-! ### Claim C6 -/

/-- When the slot ids in a list are unique, the search by a member's slot
id finds that member. -/
theorem find_id_eq_self {κ ν : Type} {l : List (Node κ ν)}
    (hnd : (l.map Node.id).Nodup) {n : Node κ ν} (hm : n ∈ l) :
    l.find? (fun x => decide (x.id = n.id)) = some n := by
  induction l with
  | nil => cases hm
  | cons a tl ih =>
    rw [List.map_cons, List.nodup_cons] at hnd
    rcases List.mem_cons.mp hm with rfl | htl
    · rw [List.find?_cons_of_pos _ (by simp)]
    · have hane : ¬(a.id = n.id) := fun he =>
        hnd.1 (he ▸ List.mem_map_of_mem Node.id htl)
      rw [List.find?_cons_of_neg _ (by simpa using hane)]
      exact ih hnd.2 htl

/-- A live node survives `set_value` on its own slot as the same node with
the new value. -/
theorem set_value_mem_self {κ ν : Type} {s : lru_cache κ ν} {n : Node κ ν} (v : ν)
    (hm : n ∈ s.lru ++ s.unevicted_list) :
    ({ n with value := v } : Node κ ν) ∈
      (lru_cache.set_value s n.id v).lru ++ (lru_cache.set_value s n.id v).unevicted_list := by
  rw [lru_cache.set_value]
  dsimp only
  rcases List.mem_append.mp hm with h1 | h1
  · apply List.mem_append_left
    have hmm := List.mem_map_of_mem
      (fun m => if m.id = n.id then { m with value := v } else m) h1
    simpa using hmm
  · apply List.mem_append_right
    have hmm := List.mem_map_of_mem
      (fun m => if m.id = n.id then { m with value := v } else m) h1
    simpa using hmm

/-- Claim C6: every hit of `get` touches the found node, and every
overwrite hit of `insert` — the key found by the probe that runs after the
eviction check — overwrites the value and touches the overwritten node;
the touch stamps `access_time` with `++current_time` and unlinks/relinks
the node at the MRU end with `promotion_time := access_time` exactly when
the node is evictable and the new access time exceeds `promotion_time` by
more than the soft promotion threshold (in wrapping `uint64_t`
arithmetic); a pinned node is only restamped in place, never moved. -/
theorem touch_spec {κ ν : Type} [DecidableEq κ] {s : lru_cache κ ν}
    (hs : Reachable s) :
    CacheInv s ∧
    (∀ (k : κ) (n : Node κ ν), lru_cache.find_in_index s k = some n →
      n ∈ s.lru ++ s.unevicted_list ∧
      lru_cache.get s k = (some n.value, lru_cache.lru_touch s n.id)) ∧
    (∀ (s1 : lru_cache κ ν) (k : κ) (n : Node κ ν) (v : ν) (e : Bool),
      lru_cache.make_room_for_insert s = some s1 →
      lru_cache.find_in_index s1 k = some n →
      lru_cache.insert s k v e =
        some (lru_cache.lru_touch (lru_cache.set_value s1 n.id v) n.id) ∧
      CacheInv (lru_cache.set_value s1 n.id v) ∧
      ({ n with value := v } : Node κ ν) ∈
        (lru_cache.set_value s1 n.id v).lru ++
          (lru_cache.set_value s1 n.id v).unevicted_list) ∧
    (∀ (s0 : lru_cache κ ν) (n : Node κ ν), CacheInv s0 →
      n ∈ s0.lru ++ s0.unevicted_list →
      (lru_cache.lru_touch s0 n.id).current_time = u64 (s0.current_time + 1) ∧
      (n.evictable = true ∧
          s0.soft_promotion < u64_sub (u64 (s0.current_time + 1)) n.promotion_time →
        lru_cache.lru_touch s0 n.id = lru_cache.touch_promote s0 n) ∧
      (¬(n.evictable = true ∧
          s0.soft_promotion < u64_sub (u64 (s0.current_time + 1)) n.promotion_time) →
        lru_cache.lru_touch s0 n.id = lru_cache.touch_plain s0 n) ∧
      (n.evictable = false →
        (lru_cache.lru_touch s0 n.id).lru.map Node.id = s0.lru.map Node.id ∧
        (lru_cache.lru_touch s0 n.id).unevicted_list.map Node.id =
          s0.unevicted_list.map Node.id)) := by
  have h := cacheInv_reachable hs
  refine ⟨h, ?_, ?_, ?_⟩
  · intro k n hf
    exact ⟨List.mem_of_find?_eq_some hf, get_of_hit hf⟩
  · intro s1 k n v e hmr hf
    obtain ⟨s2, hmr2, hinv2, -, -, -, -, -, -, -⟩ := cacheInv_make_room h
    rw [hmr2] at hmr
    cases hmr
    exact ⟨insert_of_present hmr2 hf v e, cacheInv_set_value hinv2 n.id v,
      set_value_mem_self v (List.mem_of_find?_eq_some hf)⟩
  · intro s0 n h0 hn_mem
    have hfid : (lru_cache.live s0).find? (fun x => decide (x.id = n.id)) = some n :=
      find_id_eq_self h0.live_ids_nodup hn_mem
    refine ⟨?_, ?_, ?_, ?_⟩
    · rw [lru_touch_of_find_some hfid]
      by_cases hcond :
          s0.soft_promotion < u64_sub (u64 (s0.current_time + 1)) n.promotion_time ∧
            n.evictable = true
      · rw [if_pos hcond]
        rfl
      · rw [if_neg hcond]
        rfl
    · intro hc
      rw [lru_touch_of_find_some hfid, if_pos ⟨hc.2, hc.1⟩]
    · intro hc
      rw [lru_touch_of_find_some hfid, if_neg (fun hx => hc ⟨hx.2, hx.1⟩)]
    · intro hev
      have hc : ¬(s0.soft_promotion <
          u64_sub (u64 (s0.current_time + 1)) n.promotion_time ∧
          n.evictable = true) := by
        rw [hev]
        simp
      rw [lru_touch_of_find_some hfid, if_neg hc, lru_cache.touch_plain]
      dsimp only
      exact ⟨map_access_update_map _ _ _ Node.id (fun m => rfl),
        map_access_update_map _ _ _ Node.id (fun m => rfl)⟩

/-- Witness for C6 at the reachable state demo5. -/
theorem touch_spec_witness :
    CacheInv demo5 ∧
    (∀ (k : Nat) (n : Node Nat Nat), lru_cache.find_in_index demo5 k = some n →
      n ∈ demo5.lru ++ demo5.unevicted_list ∧
      lru_cache.get demo5 k = (some n.value, lru_cache.lru_touch demo5 n.id)) ∧
    (∀ (s1 : lru_cache Nat Nat) (k : Nat) (n : Node Nat Nat) (v : Nat) (e : Bool),
      lru_cache.make_room_for_insert demo5 = some s1 →
      lru_cache.find_in_index s1 k = some n →
      lru_cache.insert demo5 k v e =
        some (lru_cache.lru_touch (lru_cache.set_value s1 n.id v) n.id) ∧
      CacheInv (lru_cache.set_value s1 n.id v) ∧
      ({ n with value := v } : Node Nat Nat) ∈
        (lru_cache.set_value s1 n.id v).lru ++
          (lru_cache.set_value s1 n.id v).unevicted_list) ∧
    (∀ (s0 : lru_cache Nat Nat) (n : Node Nat Nat), CacheInv s0 →
      n ∈ s0.lru ++ s0.unevicted_list →
      (lru_cache.lru_touch s0 n.id).current_time = u64 (s0.current_time + 1) ∧
      (n.evictable = true ∧
          s0.soft_promotion < u64_sub (u64 (s0.current_time + 1)) n.promotion_time →
        lru_cache.lru_touch s0 n.id = lru_cache.touch_promote s0 n) ∧
      (¬(n.evictable = true ∧
          s0.soft_promotion < u64_sub (u64 (s0.current_time + 1)) n.promotion_time) →
        lru_cache.lru_touch s0 n.id = lru_cache.touch_plain s0 n) ∧
      (n.evictable = false →
        (lru_cache.lru_touch s0 n.id).lru.map Node.id = s0.lru.map Node.id ∧
        (lru_cache.lru_touch s0 n.id).unevicted_list.map Node.id =
          s0.unevicted_list.map Node.id)) :=
  touch_spec demo5_reachable

/-! ### Claim C7 -/

/-- The lru list of the state produced by `make_room_for_insert` is a
sublist of the original lru list: eviction only drops a suffix. -/
theorem make_room_lru_subset {κ ν : Type} {s s1 : lru_cache κ ν}
    (hmr : lru_cache.make_room_for_insert s = some s1) :
    ∀ m ∈ s1.lru, m ∈ s.lru := by
  rw [lru_cache.make_room_for_insert] at hmr
  by_cases ht : s.free_nodes.length + s.nr_unevicted < s.max_size
  · rw [if_pos ht] at hmr
    by_cases hlen : s.batch_evict_size ≤ s.lru.length
    · rw [if_pos hlen] at hmr
      cases hmr
      exact fun m hm => List.take_subset _ _ hm
    · rw [if_neg hlen] at hmr
      exact absurd hmr (by simp)
  · rw [if_neg ht] at hmr
    cases hmr
    exact fun m hm => hm

/-- Claim C7, amended: when key `k` is present after the pre-insert
eviction check (in particular whenever the check does not fire, and also
when it fires but does not evict `k`), `insert(k, v, e)` overwrites the
stored value with `v` and touches the node, leaving its evictable flag,
its side of the two-list split, and the pinned counter unchanged, for both
values of `e`; the evictable-list slots are those left by the check.
(When the eviction batch evicts `k` itself the key is instead reinserted
fresh with class `e`, see the counterexample.) -/
theorem insert_present_overwrite_preserves_class {κ ν : Type} [DecidableEq κ]
    {s s1 : lru_cache κ ν} {k : κ} {n : Node κ ν} (hs : Reachable s)
    (hmr : lru_cache.make_room_for_insert s = some s1)
    (hf : lru_cache.find_in_index s1 k = some n) (v : ν) (e : Bool) :
    ∃ s', lru_cache.insert s k v e = some s' ∧
      s'.nr_unevicted = s.nr_unevicted ∧
      s'.unevicted_list.map Node.id = s.unevicted_list.map Node.id ∧
      (s'.lru.map Node.id).Perm (s1.lru.map Node.id) ∧
      ∃ m', m'.id = n.id ∧ m'.key = n.key ∧ m'.value = v ∧
        m'.evictable = n.evictable ∧
        ((m' ∈ s'.lru ∧ n ∈ s.lru) ∨
          (m' ∈ s'.unevicted_list ∧ n ∈ s.unevicted_list)) := by
  have h0 := cacheInv_reachable hs
  have hlsub := make_room_lru_subset hmr
  obtain ⟨s2, hmr2, h, -, -, -, hunev2, hnr2, -, -⟩ := cacheInv_make_room h0
  rw [hmr2] at hmr
  obtain rfl : s1 = s2 := (Option.some.inj hmr).symm
  have hins := insert_of_present hmr2 hf v e
  have hn_mem : n ∈ s1.lru ++ s1.unevicted_list := List.mem_of_find?_eq_some hf
  have hlid : (lru_cache.set_value s1 n.id v).lru.map Node.id = s1.lru.map Node.id :=
    map_value_update_map _ _ _ Node.id (fun m => rfl)
  have huid : (lru_cache.set_value s1 n.id v).unevicted_list.map Node.id =
      s1.unevicted_list.map Node.id :=
    map_value_update_map _ _ _ Node.id (fun m => rfl)
  have hnd2 : (((lru_cache.set_value s1 n.id v).lru ++
      (lru_cache.set_value s1 n.id v).unevicted_list).map Node.id).Nodup := by
    rw [List.map_append, hlid, huid, ← List.map_append]
    exact h.live_ids_nodup
  have hlive_nd := h.live_ids_nodup
  rw [List.map_append, List.nodup_append] at hlive_nd
  obtain ⟨hnd_lru, hnd_unev, hdisj⟩ := hlive_nd
  by_cases hev : n.evictable = true
  · -- the node lives on the evictable list
    have hn_lru : n ∈ s1.lru := by
      rcases List.mem_append.mp hn_mem with h1 | h1
      · exact h1
      · exact absurd (h.unev_flags n h1) (by rw [hev]; simp)
    have hn2_lru : ({n with value := v} : Node κ ν) ∈
        (lru_cache.set_value s1 n.id v).lru := by
      rw [lru_cache.set_value]
      dsimp only
      have hmm := List.mem_map_of_mem
        (fun m => if m.id = n.id then { m with value := v } else m) hn_lru
      simpa using hmm
    have hfid : (lru_cache.live (lru_cache.set_value s1 n.id v)).find?
        (fun x => decide (x.id = n.id)) = some { n with value := v } :=
      find_id_eq_self hnd2 (List.mem_append_left _ hn2_lru)
    by_cases hwin : s1.soft_promotion <
        u64_sub (u64 (s1.current_time + 1)) n.promotion_time
    · -- promotion: the node moves to the MRU end of the evictable list
      have htch : lru_cache.lru_touch (lru_cache.set_value s1 n.id v) n.id =
          lru_cache.touch_promote (lru_cache.set_value s1 n.id v)
            { n with value := v } := by
        rw [lru_touch_of_find_some hfid, if_pos]
        exact ⟨hwin, hev⟩
      rw [htch] at hins
      refine ⟨_, hins, hnr2, ?_, ?_, ?_⟩
      · rw [lru_cache.touch_promote]
        dsimp only
        have hnotun : ({n with value := v} : Node κ ν).id ∉
            (lru_cache.set_value s1 n.id v).unevicted_list.map Node.id := by
          rw [huid]
          exact fun hx => hdisj (List.mem_map_of_mem Node.id hn_lru) hx
        rw [filter_ne_id_eq_self hnotun, huid, hunev2]
      · have hpl : (lru_cache.set_value s1 n.id v).lru.Perm
            ({ n with value := v } :: (lru_cache.set_value s1 n.id v).lru.filter
              (fun m => decide (m.id ≠ ({ n with value := v } : Node κ ν).id))) :=
          perm_cons_filter_of_mem hn2_lru (by rw [hlid]; exact hnd_lru)
        have hperm := (hpl.map Node.id).symm
        rw [hlid] at hperm
        exact hperm
      · refine ⟨⟨n.id, n.key, v,
          u64 ((lru_cache.set_value s1 n.id v).current_time + 1),
          u64 ((lru_cache.set_value s1 n.id v).current_time + 1), n.evictable⟩,
          rfl, rfl, rfl, rfl, Or.inl ⟨?_, hlsub n hn_lru⟩⟩
        rw [lru_cache.touch_promote]
        dsimp only
        exact List.mem_cons_self _ _
    · -- no promotion: in-place restamp only
      have htch : lru_cache.lru_touch (lru_cache.set_value s1 n.id v) n.id =
          lru_cache.touch_plain (lru_cache.set_value s1 n.id v)
            { n with value := v } := by
        rw [lru_touch_of_find_some hfid, if_neg (fun hx => hwin hx.1)]
      rw [htch] at hins
      refine ⟨_, hins, hnr2, ?_, ?_, ?_⟩
      · rw [lru_cache.touch_plain]
        dsimp only
        rw [map_access_update_map _ _ _ Node.id (fun m => rfl), huid, hunev2]
      · rw [lru_cache.touch_plain]
        dsimp only
        rw [map_access_update_map _ _ _ Node.id (fun m => rfl), hlid]
      · refine ⟨⟨n.id, n.key, v,
          u64 ((lru_cache.set_value s1 n.id v).current_time + 1),
          n.promotion_time, n.evictable⟩,
          rfl, rfl, rfl, rfl, Or.inl ⟨?_, hlsub n hn_lru⟩⟩
        rw [lru_cache.touch_plain]
        dsimp only
        have hmm := List.mem_map_of_mem
          (fun m => if m.id = ({ n with value := v } : Node κ ν).id
            then { m with access_time := u64 ((lru_cache.set_value s1 n.id v).current_time + 1) }
            else m) hn2_lru
        simpa using hmm
  · -- the node is pinned: never promoted, never moved
    have hevf : n.evictable = false := by
      revert hev
      cases n.evictable <;> simp
    have hn_unev : n ∈ s1.unevicted_list := by
      rcases List.mem_append.mp hn_mem with h1 | h1
      · exact absurd (h.lru_flags n h1) (by rw [hevf]; simp)
      · exact h1
    have hn2_unev : ({n with value := v} : Node κ ν) ∈
        (lru_cache.set_value s1 n.id v).unevicted_list := by
      rw [lru_cache.set_value]
      dsimp only
      have hmm := List.mem_map_of_mem
        (fun m => if m.id = n.id then { m with value := v } else m) hn_unev
      simpa using hmm
    have hfid : (lru_cache.live (lru_cache.set_value s1 n.id v)).find?
        (fun x => decide (x.id = n.id)) = some { n with value := v } :=
      find_id_eq_self hnd2 (List.mem_append_right _ hn2_unev)
    have hne : ¬((lru_cache.set_value s1 n.id v).soft_promotion <
        u64_sub (u64 ((lru_cache.set_value s1 n.id v).current_time + 1))
          ({ n with value := v } : Node κ ν).promotion_time ∧
        ({ n with value := v } : Node κ ν).evictable = true) := by
      intro hx
      have hxe : n.evictable = true := hx.2
      rw [hevf] at hxe
      exact Bool.false_ne_true hxe
    have htch : lru_cache.lru_touch (lru_cache.set_value s1 n.id v) n.id =
        lru_cache.touch_plain (lru_cache.set_value s1 n.id v)
          { n with value := v } := by
      rw [lru_touch_of_find_some hfid, if_neg hne]
    rw [htch] at hins
    refine ⟨_, hins, hnr2, ?_, ?_, ?_⟩
    · rw [lru_cache.touch_plain]
      dsimp only
      rw [map_access_update_map _ _ _ Node.id (fun m => rfl), huid, hunev2]
    · rw [lru_cache.touch_plain]
      dsimp only
      rw [map_access_update_map _ _ _ Node.id (fun m => rfl), hlid]
    · refine ⟨⟨n.id, n.key, v,
        u64 ((lru_cache.set_value s1 n.id v).current_time + 1),
        n.promotion_time, n.evictable⟩,
        rfl, rfl, rfl, rfl, Or.inr ⟨?_, hunev2 ▸ hn_unev⟩⟩
      rw [lru_cache.touch_plain]
      dsimp only
      have hmm := List.mem_map_of_mem
        (fun m => if m.id = ({ n with value := v } : Node κ ν).id
          then { m with access_time := u64 ((lru_cache.set_value s1 n.id v).current_time + 1) }
          else m) hn2_unev
      simpa using hmm

/-- The state of `demo7` after the pre-insert eviction check: the batch
evicted keys 3 and 4 (slots 2 and 3 return to the free stack) while key 5
survives in slot 4. -/
def demo7_evicted : lru_cache Nat Nat where
  max_size := 4
  soft_promotion := 2
  batch_evict_size := 2
  free_nodes := [3, 2, 5, 6, 7]
  lru := [⟨0, 7, 17, 7, 7, true⟩, ⟨1, 6, 16, 6, 6, true⟩, ⟨4, 5, 15, 5, 5, true⟩]
  unevicted_list := []
  current_time := 7
  nr_unevicted := 0

/-- Witness for C7: in `demo7` the eviction check fires, evicts keys 3
and 4 but not key 5; `insert 5 99 false` then overwrites the surviving
node in place. -/
theorem insert_present_overwrite_preserves_class_witness :
    ∃ s', lru_cache.insert demo7 5 99 false = some s' ∧
      s'.nr_unevicted = demo7.nr_unevicted ∧
      s'.unevicted_list.map Node.id = demo7.unevicted_list.map Node.id ∧
      (s'.lru.map Node.id).Perm (demo7_evicted.lru.map Node.id) ∧
      ∃ m', m'.id = (⟨4, 5, 15, 5, 5, true⟩ : Node Nat Nat).id ∧
        m'.key = (⟨4, 5, 15, 5, 5, true⟩ : Node Nat Nat).key ∧ m'.value = 99 ∧
        m'.evictable = (⟨4, 5, 15, 5, 5, true⟩ : Node Nat Nat).evictable ∧
        ((m' ∈ s'.lru ∧ (⟨4, 5, 15, 5, 5, true⟩ : Node Nat Nat) ∈ demo7.lru) ∨
          (m' ∈ s'.unevicted_list ∧
            (⟨4, 5, 15, 5, 5, true⟩ : Node Nat Nat) ∈ demo7.unevicted_list)) :=
  insert_present_overwrite_preserves_class demo7_reachable (by decide) (by decide)
    99 false

/-! ### Claim C10 -/

/-- The timestamp invariant on live nodes: `promotion_time <= access_time
<= current_time` (spec invariant 4). -/
def TimesOk (s : lru_cache κ ν) : Prop :=
  ∀ n ∈ s.lru ++ s.unevicted_list,
    n.promotion_time ≤ n.access_time ∧ n.access_time ≤ s.current_time

/-- A touch advances the clock by at most one (exactly one below the wrap
point, and back to zero at it). -/
theorem touch_current_le (s : lru_cache κ ν) (nid : Nat) :
    (lru_cache.lru_touch s nid).current_time ≤ s.current_time + 1 := by
  cases hf : (lru_cache.live s).find? (fun m => decide (m.id = nid)) with
  | none =>
    rw [lru_touch_of_find_none hf]
    exact Nat.le_succ _
  | some n =>
    rw [lru_touch_of_find_some hf]
    by_cases hc : s.soft_promotion < u64_sub (u64 (s.current_time + 1)) n.promotion_time ∧
        n.evictable = true
    · rw [if_pos hc]
      exact Nat.mod_le _ _
    · rw [if_neg hc]
      exact Nat.mod_le _ _

theorem timesOk_touch_promote {s : lru_cache κ ν} (n : Node κ ν)
    (ht : TimesOk s) (hw : s.current_time + 1 < 2 ^ 64) :
    TimesOk (lru_cache.touch_promote s n) := by
  intro m hm
  simp only [lru_cache.touch_promote] at hm ⊢
  have hu : u64 (s.current_time + 1) = s.current_time + 1 := Nat.mod_eq_of_lt hw
  rw [hu]
  rcases List.mem_append.mp hm with hm1 | hm1
  · rcases List.mem_cons.mp hm1 with rfl | hm2
    · exact ⟨le_refl _, hu.le⟩
    · have hmt := ht m (List.mem_append_left _ (List.mem_of_mem_filter hm2))
      omega
  · have hmt := ht m (List.mem_append_right _ (List.mem_of_mem_filter hm1))
    omega

theorem timesOk_touch_plain {s : lru_cache κ ν} (n : Node κ ν)
    (ht : TimesOk s) (hw : s.current_time + 1 < 2 ^ 64) :
    TimesOk (lru_cache.touch_plain s n) := by
  intro m hm
  simp only [lru_cache.touch_plain] at hm ⊢
  have hu : u64 (s.current_time + 1) = s.current_time + 1 := Nat.mod_eq_of_lt hw
  rw [hu]
  rcases List.mem_append.mp hm with hm1 | hm1 <;>
    obtain ⟨m0, hm0, rfl⟩ := List.mem_map.mp hm1
  · have hmt := ht m0 (List.mem_append_left _ hm0)
    by_cases hid : m0.id = n.id
    · rw [if_pos hid]
      dsimp only
      rw [hu]
      omega
    · rw [if_neg hid]
      omega
  · have hmt := ht m0 (List.mem_append_right _ hm0)
    by_cases hid : m0.id = n.id
    · rw [if_pos hid]
      dsimp only
      rw [hu]
      omega
    · rw [if_neg hid]
      omega

theorem timesOk_lru_touch {s : lru_cache κ ν} (nid : Nat)
    (ht : TimesOk s) (hw : s.current_time + 1 < 2 ^ 64) :
    TimesOk (lru_cache.lru_touch s nid) := by
  cases hf : (lru_cache.live s).find? (fun m => decide (m.id = nid)) with
  | none =>
    rw [lru_touch_of_find_none hf]
    exact ht
  | some n =>
    rw [lru_touch_of_find_some hf]
    by_cases hc : s.soft_promotion < u64_sub (u64 (s.current_time + 1)) n.promotion_time ∧
        n.evictable = true
    · rw [if_pos hc]
      exact timesOk_touch_promote n ht hw
    · rw [if_neg hc]
      exact timesOk_touch_plain n ht hw

theorem timesOk_set_value {s : lru_cache κ ν} (nid : Nat) (v : ν)
    (ht : TimesOk s) : TimesOk (lru_cache.set_value s nid v) := by
  intro m hm
  simp only [lru_cache.set_value] at hm ⊢
  rcases List.mem_append.mp hm with hm1 | hm1 <;>
    obtain ⟨m0, hm0, rfl⟩ := List.mem_map.mp hm1
  · have hmt := ht m0 (List.mem_append_left _ hm0)
    by_cases hid : m0.id = nid
    · rw [if_pos hid]
      exact hmt
    · rw [if_neg hid]
      exact hmt
  · have hmt := ht m0 (List.mem_append_right _ hm0)
    by_cases hid : m0.id = nid
    · rw [if_pos hid]
      exact hmt
    · rw [if_neg hid]
      exact hmt

theorem timesOk_make_room {s s1 : lru_cache κ ν}
    (hmr : lru_cache.make_room_for_insert s = some s1) (ht : TimesOk s) :
    TimesOk s1 := by
  obtain ⟨hsub, htime⟩ := make_room_mem hmr
  intro m hm
  rw [htime]
  exact ht m (hsub m hm)

/-- One completed public operation preserves the timestamp invariant and
advances the clock by at most one, as long as the clock does not reach the
64-bit wrap point during it. -/
theorem times_apply_op {s s' : lru_cache κ ν} {op : Op κ ν}
    (hstep : apply_op s op = some s') (ht : TimesOk s)
    (hw : s.current_time + 1 < 2 ^ 64) :
    s'.current_time ≤ s.current_time + 1 ∧ TimesOk s' := by
  cases op with
  | get k =>
    rw [apply_op] at hstep
    cases hstep
    cases hf : lru_cache.find_in_index s k with
    | none =>
      rw [get_of_miss hf]
      exact ⟨Nat.le_succ _, ht⟩
    | some n =>
      rw [get_of_hit hf]
      exact ⟨touch_current_le s n.id, timesOk_lru_touch n.id ht hw⟩
  | insert k v e =>
    rw [apply_op] at hstep
    cases hmr : lru_cache.make_room_for_insert s with
    | none =>
      rw [lru_cache.insert, lru_cache.insert_check, hmr] at hstep
      have h2 : (none : Option (lru_cache κ ν)) = some s' := hstep
      exact absurd h2 (by simp)
    | some s1 =>
      obtain ⟨hsub1, htime1⟩ := make_room_mem hmr
      have ht1 : TimesOk s1 := timesOk_make_room hmr ht
      have hw1 : s1.current_time + 1 < 2 ^ 64 := by omega
      cases hf : lru_cache.find_in_index s1 k with
      | some n =>
        rw [insert_of_present hmr hf v e] at hstep
        cases hstep
        have ht2 : TimesOk (lru_cache.set_value s1 n.id v) := timesOk_set_value n.id v ht1
        have hw2 : (lru_cache.set_value s1 n.id v).current_time + 1 < 2 ^ 64 := by
          show s1.current_time + 1 < 2 ^ 64
          omega
        refine ⟨?_, timesOk_lru_touch n.id ht2 hw2⟩
        have h1 := touch_current_le (lru_cache.set_value s1 n.id v) n.id
        have h2 : (lru_cache.set_value s1 n.id v).current_time = s1.current_time := rfl
        omega
      | none =>
        cases hfree : s1.free_nodes with
        | nil =>
          rw [insert_of_absent hmr hf v e, do_insert_of_empty hfree] at hstep
          have h2 : (none : Option (lru_cache κ ν)) = some s' := hstep
          exact absurd h2 (by simp)
        | cons nid rest =>
          have hu : u64 (s1.current_time + 1) = s1.current_time + 1 :=
            Nat.mod_eq_of_lt hw1
          have hle : u64 (s1.current_time + 1) ≤ s1.current_time + 1 := Nat.mod_le _ _
          cases e with
          | true =>
            rw [insert_absent_cons_true hmr hf hfree v] at hstep
            cases hstep
            constructor
            · dsimp only
              omega
            · intro m hm
              dsimp only at hm ⊢
              rw [hu]
              rcases List.mem_append.mp hm with hm1 | hm1
              · rcases List.mem_cons.mp hm1 with rfl | hm3
                · exact ⟨le_refl _, hu.le⟩
                · have hmt := ht1 m (List.mem_append_left _ hm3)
                  omega
              · have hmt := ht1 m (List.mem_append_right _ hm1)
                omega
          | false =>
            rw [insert_absent_cons_false hmr hf hfree v] at hstep
            cases hstep
            constructor
            · dsimp only
              omega
            · intro m hm
              dsimp only at hm ⊢
              rw [hu]
              rcases List.mem_append.mp hm with hm1 | hm1
              · have hmt := ht1 m (List.mem_append_left _ hm1)
                omega
              · rcases List.mem_cons.mp hm1 with rfl | hm3
                · exact ⟨le_refl _, hu.le⟩
                · have hmt := ht1 m (List.mem_append_right _ hm3)
                  omega
  | insert_on_missing k v =>
    rw [apply_op] at hstep
    cases hmr : lru_cache.make_room_for_insert s with
    | none =>
      rw [lru_cache.insert_on_missing, lru_cache.insert_check, hmr] at hstep
      have h2 : (none : Option (lru_cache κ ν)) = some s' := hstep
      exact absurd h2 (by simp)
    | some s1 =>
      obtain ⟨hsub1, htime1⟩ := make_room_mem hmr
      have ht1 : TimesOk s1 := timesOk_make_room hmr ht
      have hw1 : s1.current_time + 1 < 2 ^ 64 := by omega
      cases hf : lru_cache.find_in_index s1 k with
      | some n =>
        rw [insert_on_missing_of_present hmr hf v] at hstep
        cases hstep
        exact ⟨by omega, ht1⟩
      | none =>
        rw [insert_on_missing_of_absent hmr hf v] at hstep
        cases hfree : s1.free_nodes with
        | nil =>
          rw [do_insert_of_empty hfree] at hstep
          exact absurd hstep (by simp)
        | cons nid rest =>
          rw [do_insert_of_cons_true hfree] at hstep
          cases hstep
          have hu : u64 (s1.current_time + 1) = s1.current_time + 1 :=
            Nat.mod_eq_of_lt hw1
          have hle : u64 (s1.current_time + 1) ≤ s1.current_time + 1 := Nat.mod_le _ _
          constructor
          · dsimp only
            omega
          · intro m hm
            dsimp only at hm ⊢
            rw [hu]
            rcases List.mem_append.mp hm with hm1 | hm1
            · rcases List.mem_cons.mp hm1 with rfl | hm3
              · exact ⟨le_refl _, hu.le⟩
              · have hmt := ht1 m (List.mem_append_left _ hm3)
                omega
            · have hmt := ht1 m (List.mem_append_right _ hm1)
              omega

/-- Reachability indexed by the number of public operations executed
since construction. -/
inductive ReachableN : Nat → lru_cache κ ν → Prop where
  | init (capacity : Nat) : ReachableN 0 (lru_cache.init capacity)
  | step {j : Nat} {s s' : lru_cache κ ν} (op : Op κ ν) :
      ReachableN j s → apply_op s op = some s' → ReachableN (j + 1) s'

/-- Folding `run` into `ReachableN`. -/
theorem run_reachableN {j : Nat} {s s' : lru_cache κ ν} {ops : List (Op κ ν)}
    (hs : ReachableN j s) (h : run s ops = some s') :
    ReachableN (j + ops.length) s' := by
  induction ops generalizing j s with
  | nil =>
    rw [run] at h
    cases h
    simpa using hs
  | cons op rest ih =>
    rw [run] at h
    cases hop : apply_op s op with
    | none => rw [hop] at h; exact absurd h (by simp)
    | some s1 =>
      rw [hop] at h
      have h2 := ih (ReachableN.step op hs hop) h
      have heq : j + (op :: rest).length = j + 1 + rest.length := by
        simp only [List.length_cons]
        omega
      rw [heq]
      exact h2

theorem demo5_reachableN : ReachableN 5 demo5 :=
  run_reachableN (ReachableN.init 4) demo5_run

/-- As long as fewer than `2 ^ 64` operations have run, the clock is
bounded by the operation count and the timestamp invariant holds. -/
theorem timesOk_reachableN {j : Nat} {s : lru_cache κ ν}
    (hs : ReachableN j s) : j < 2 ^ 64 → s.current_time ≤ j ∧ TimesOk s := by
  induction hs with
  | init capacity =>
    intro h0
    refine ⟨Nat.le_refl 0, ?_⟩
    intro n hn
    simp [lru_cache.init] at hn
  | step op hr hstep ih =>
    intro hj
    obtain ⟨hcur, ht⟩ := ih (by omega)
    obtain ⟨hc2, ht2⟩ := times_apply_op hstep ht (by omega)
    exact ⟨by omega, ht2⟩

/-- Claim C10, amended: across any operation sequence of fewer than
`2 ^ 64` public operations the clock never wraps, every live node
satisfies `promotion_time <= access_time <= current_time`, and any node
that an operation puts on the lists without having been live before
carries an access time strictly above the pre-operation clock (so the
values of `access_time` assigned over the sequence are strictly
increasing).  The bound is necessary: the 64-bit clock wraps, see
`timestamps_wrap_counterexample`. -/
theorem timestamps_bounded_monotone {κ ν : Type} [DecidableEq κ] {j : Nat}
    {s : lru_cache κ ν} (hs : ReachableN j s) (hj : j < 2 ^ 64) :
    s.current_time ≤ j ∧
    (∀ n ∈ s.lru ++ s.unevicted_list,
      n.promotion_time ≤ n.access_time ∧ n.access_time ≤ s.current_time) ∧
    (s.current_time + 1 < 2 ^ 64 →
      ∀ (op : Op κ ν) (s' : lru_cache κ ν), apply_op s op = some s' →
        ∀ m ∈ s'.lru ++ s'.unevicted_list, m ∉ s.lru ++ s.unevicted_list →
          s.current_time < m.access_time) := by
  obtain ⟨hcur, ht⟩ := timesOk_reachableN hs hj
  refine ⟨hcur, ht, ?_⟩
  intro hw op s' hstep m hm hnot
  rcases fresh_access_apply_op hstep m hm with hin | hacc
  · exact absurd hin hnot
  · rw [hacc, show u64 (s.current_time + 1) = s.current_time + 1 from
      Nat.mod_eq_of_lt hw]
    exact Nat.lt_succ_self _

/-- Witness for the amended C10 at the reachable state demo5 (five
operations). -/
theorem timestamps_bounded_monotone_witness :
    demo5.current_time ≤ 5 ∧
    (∀ n ∈ demo5.lru ++ demo5.unevicted_list,
      n.promotion_time ≤ n.access_time ∧ n.access_time ≤ demo5.current_time) ∧
    (demo5.current_time + 1 < 2 ^ 64 →
      ∀ (op : Op Nat Nat) (s' : lru_cache Nat Nat), apply_op demo5 op = some s' →
        ∀ m ∈ s'.lru ++ s'.unevicted_list, m ∉ demo5.lru ++ demo5.unevicted_list →
          demo5.current_time < m.access_time) :=
  timestamps_bounded_monotone demo5_reachableN (by norm_num)

theorem run_append (s : lru_cache κ ν) (l1 l2 : List (Op κ ν)) :
    run s (l1 ++ l2) = match run s l1 with
      | none => none
      | some s1 => run s1 l2 := by
  induction l1 generalizing s with
  | nil => rfl
  | cons op rest ih =>
    rw [List.cons_append, run]
    cases hop : apply_op s op with
    | none =>
      rw [run, hop]
    | some s1 =>
      rw [run, hop]
      exact ih s1

/-- A capacity-1 cache holding key 0 (value 0, slot 0, both timestamps
equal to the clock), with slot 1 free and the clock at `τ`. -/
def clockState (τ : Nat) : lru_cache Nat Nat where
  max_size := 1
  soft_promotion := 0
  batch_evict_size := 1
  free_nodes := [1]
  lru := [⟨0, 0, 0, τ, τ, true⟩]
  unevicted_list := []
  current_time := τ
  nr_unevicted := 0

/-- One `get 0` on `clockState τ` promotes the node and moves the clock to
`u64 (τ + 1)`. -/
theorem clockState_get (τ : Nat) (hτ : τ < 2 ^ 64) :
    apply_op (clockState τ) (Op.get 0) = some (clockState (u64 (τ + 1))) := by
  have hone : u64_sub (u64 (τ + 1)) τ = 1 := by
    by_cases hc : τ + 1 < 2 ^ 64
    · show (u64 (τ + 1) + 2 ^ 64 - τ) % 2 ^ 64 = 1
      rw [show u64 (τ + 1) = τ + 1 from Nat.mod_eq_of_lt hc,
        show τ + 1 + 2 ^ 64 - τ = 2 ^ 64 + 1 from by omega,
        Nat.add_mod_left]
      exact Nat.mod_eq_of_lt (by norm_num)
    · have h1 : τ + 1 = 2 ^ 64 := by omega
      show (u64 (τ + 1) + 2 ^ 64 - τ) % 2 ^ 64 = 1
      rw [h1, show u64 (2 ^ 64) = 0 from Nat.mod_self _,
        show 0 + 2 ^ 64 - τ = 1 from by omega]
      exact Nat.mod_eq_of_lt (by norm_num)
  have hfind : lru_cache.find_in_index (clockState τ) 0 =
      some (⟨0, 0, 0, τ, τ, true⟩ : Node Nat Nat) := rfl
  show some (lru_cache.get (clockState τ) 0).2 = some (clockState (u64 (τ + 1)))
  rw [get_of_hit hfind]
  have hfid : (lru_cache.live (clockState τ)).find?
      (fun x => decide (x.id = (⟨0, 0, 0, τ, τ, true⟩ : Node Nat Nat).id)) =
      some (⟨0, 0, 0, τ, τ, true⟩ : Node Nat Nat) := rfl
  rw [lru_touch_of_find_some hfid]
  have hcond : (clockState τ).soft_promotion <
      u64_sub (u64 ((clockState τ).current_time + 1))
        (⟨0, 0, 0, τ, τ, true⟩ : Node Nat Nat).promotion_time ∧
      (⟨0, 0, 0, τ, τ, true⟩ : Node Nat Nat).evictable = true := by
    refine ⟨?_, rfl⟩
    show (0 : Nat) < u64_sub (u64 (τ + 1)) τ
    rw [hone]
    exact Nat.zero_lt_one
  rw [if_pos hcond]
  rfl

/-- `j` consecutive `get 0` calls advance the clock from `τ` to
`u64 (τ + j)`. -/
theorem clockState_run (j : Nat) : ∀ (τ : Nat), τ < 2 ^ 64 →
    run (clockState τ) (List.replicate j (Op.get 0)) =
      some (clockState (u64 (τ + j))) := by
  induction j with
  | zero =>
    intro τ hτ
    show some (clockState τ) = some (clockState (u64 (τ + 0)))
    rw [show u64 (τ + 0) = τ from by
      show (τ + 0) % 2 ^ 64 = τ
      rw [Nat.add_zero]
      exact Nat.mod_eq_of_lt hτ]
  | succ i ih =>
    intro τ hτ
    rw [List.replicate_succ, run, clockState_get τ hτ]
    show run (clockState (u64 (τ + 1))) (List.replicate i (Op.get 0)) =
        some (clockState (u64 (τ + (i + 1))))
    rw [ih (u64 (τ + 1)) (Nat.mod_lt _ (by norm_num))]
    rw [show u64 (u64 (τ + 1) + i) = u64 (τ + (i + 1)) from by
      show ((τ + 1) % 2 ^ 64 + i) % 2 ^ 64 = (τ + (i + 1)) % 2 ^ 64
      rw [Nat.mod_add_mod, show τ + 1 + i = τ + (i + 1) from by omega]]

/-- The state with the clock one step below the wrap point is reachable:
one insert followed by `2 ^ 64 - 2` gets on a capacity-1 cache. -/
theorem clockState_reachable : Reachable (clockState (2 ^ 64 - 1)) := by
  have h1 : run (lru_cache.init 1 : lru_cache Nat Nat) [Op.insert 0 0 true] =
      some (clockState 1) := by decide
  have h2 : run (clockState 1) (List.replicate (2 ^ 64 - 2) (Op.get 0)) =
      some (clockState (2 ^ 64 - 1)) := by
    rw [clockState_run (2 ^ 64 - 2) 1 (by norm_num)]
    rw [show u64 (1 + (2 ^ 64 - 2)) = 2 ^ 64 - 1 from by
      show (1 + (2 ^ 64 - 2)) % 2 ^ 64 = 2 ^ 64 - 1
      rw [show 1 + (2 ^ 64 - 2) = 2 ^ 64 - 1 from by omega]
      exact Nat.mod_eq_of_lt (by omega)]
  have h3 : run (lru_cache.init 1 : lru_cache Nat Nat)
      ([Op.insert 0 0 true] ++ List.replicate (2 ^ 64 - 2) (Op.get 0)) =
      some (clockState (2 ^ 64 - 1)) := by
    rw [run_append, h1]
    exact h2
  exact run_reachable (Reachable.init 1) h3

/-- Claim C10 as stated is false for the 64-bit clock: after the (fully
reachable) sequence of one insert and `2 ^ 64 - 2` gets the only live node
carries the largest access time `2 ^ 64 - 1`, and the next `get` — a later
operation touching the node — assigns it access time `0`, which is not
greater than the previously assigned one: the assigned access times are
not strictly increasing across the whole sequence, and the invariant
`access_time <= current_time` also breaks down right after the wrap. -/
theorem timestamps_wrap_counterexample :
    Reachable (clockState (2 ^ 64 - 1)) ∧
    (clockState (2 ^ 64 - 1)).current_time = 2 ^ 64 - 1 ∧
    (∀ m ∈ (clockState (2 ^ 64 - 1)).lru ++ (clockState (2 ^ 64 - 1)).unevicted_list,
      m.access_time = 2 ^ 64 - 1) ∧
    apply_op (clockState (2 ^ 64 - 1)) (Op.get 0) = some (clockState 0) ∧
    (∀ m ∈ (clockState 0).lru ++ (clockState 0).unevicted_list,
      m.access_time = 0) ∧
    ¬ (2 ^ 64 - 1 : Nat) < (0 : Nat) := by
  refine ⟨clockState_reachable, rfl, ?_, ?_, ?_, by omega⟩
  · intro m hm
    have hm2 : m ∈ [(⟨0, 0, 0, 2 ^ 64 - 1, 2 ^ 64 - 1, true⟩ : Node Nat Nat)] := hm
    rw [List.mem_singleton] at hm2
    rw [hm2]
  · rw [clockState_get (2 ^ 64 - 1) (by omega)]
    rw [show u64 (2 ^ 64 - 1 + 1) = 0 from by
      show (2 ^ 64 - 1 + 1) % 2 ^ 64 = 0
      rw [show 2 ^ 64 - 1 + 1 = 2 ^ 64 from by omega]
      exact Nat.mod_self _]
  · intro m hm
    have hm2 : m ∈ [(⟨0, 0, 0, 0, 0, true⟩ : Node Nat Nat)] := hm
    rw [List.mem_singleton] at hm2
    rw [hm2]
